import Mathlib

/-!
Verification of the `observedstruct` specification: observable, structurally
nested container types (an observable map and an observable sequence) that
wrap plain containers and notify observers of every read and write at any
nesting depth.

The repository ships only the test suite for the core engine; the engine
itself (`ObservedDict`, `ObservedList`, the ownership/rewiring logic and the
callback dispatch protocol) is modelled here from the specification, as a
heap of nodes with explicit `parent` / `reference_in_parent` links and an
explicit event log.  Each `Event` in the log denotes one invocation of every
registered pre-callback immediately before the corresponding mutation step
and one invocation of every post-callback immediately after it, both with
the identical argument tuple `(root, operation, path, old, new)` (spec
section 4.4); callbacks in this model never raise, so the pre- and the
post-log advance together.  Errors (LookupError / ValueError classes) are
modelled as operations returning `none` or leaving the state unchanged
without logging any event (spec section 7).
-/

/-- Modelled from the spec: plain (unwrapped) structural values — a scalar,
a plain map with string keys in insertion order, or a plain sequence.
This is the form in which old/new values are reported to observers. -/
inductive Plain where
  | int : Int → Plain
  | pdict : List (String × Plain) → Plain
  | plist : List Plain → Plain

/-- Modelled from the spec: a key (for a map parent) or an index (for a
sequence parent), the steps of an absolute path. -/
inductive Ref where
  | key : String → Ref
  | idx : Nat → Ref
deriving DecidableEq

/-- Modelled from the spec: the operation classification reported to
observers (section 4.2). -/
inductive ObservedOperation where
  | Access | Add | Update | Remove
deriving DecidableEq

/-- Modelled from the spec: a value held in a backing store — a raw scalar
or a reference to a wrapped child node. -/
inductive StoredVal where
  | scalar : Int → StoredVal
  | node : Nat → StoredVal
deriving DecidableEq

/-- Modelled from the spec: the backing store of a node, either a plain map
(association list in insertion order) or a plain ordered sequence. -/
inductive Backing where
  | bdict : List (String × StoredVal) → Backing
  | blist : List StoredVal → Backing

/-- Modelled from the spec: a `Node` (an observable map or sequence
wrapper): its backing store, its parent back-reference and the key/index at
which it is stored in the parent (section 3). -/
structure Node where
  backing : Backing
  parent : Option Nat
  refInParent : Option Ref

/-- Modelled from the spec: the arena of nodes, addressed by stable ids,
together with the next fresh id. -/
structure Store where
  heap : List (Nat × Node)
  nextId : Nat

/-- One observer callback argument tuple `(root, operation, path, old, new)`. -/
structure Event where
  root : Nat
  op : ObservedOperation
  path : List Ref
  old : Option Plain
  new : Option Plain

/-- Full model state: the node arena plus the recorded argument tuples of
all pre-callback and all post-callback invocations, in call order. -/
structure ObsState where
  store : Store
  preLog : List Event
  postLog : List Event

/-- Lookup in an association heap. -/
def heapFind : List (Nat × Node) → Nat → Option Node
  | [], _ => none
  | (m, nd) :: rest, id => if m = id then some nd else heapFind rest id

/-- Insert-or-replace in an association heap. -/
def heapPut : List (Nat × Node) → Nat → Node → List (Nat × Node)
  | [], id, nd => [(id, nd)]
  | (m, nd0) :: rest, id, nd =>
      if m = id then (id, nd) :: rest else (m, nd0) :: heapPut rest id nd

def heapGet (s : Store) (id : Nat) : Option Node := heapFind s.heap id

def heapSet (s : Store) (id : Nat) (nd : Node) : Store :=
  ⟨heapPut s.heap id nd, s.nextId⟩

/-- Every id present in the heap is below `nextId` (freshness discipline). -/
def idsBounded (s : Store) : Prop := ∀ p ∈ s.heap, p.1 < s.nextId

/-- Modelled from the spec: detaching a node — its `parent` and
`reference_in_parent` are set to none, making it an orphaned root
(section 4.3 step 1). -/
def detachId (s : Store) (id : Nat) : Store :=
  match heapGet s id with
  | some nd => heapSet s id ⟨nd.backing, none, none⟩
  | none => s

def detachVal (s : Store) : StoredVal → Store
  | .node m => detachId s m
  | .scalar _ => s

def detachVals (s : Store) : List StoredVal → Store
  | [] => s
  | v :: rest => detachVals (detachVal s v) rest

/-- Replace the backing store of a node, keeping its links. -/
def setBacking (s : Store) (id : Nat) (b : Backing) : Store :=
  match heapGet s id with
  | some nd => heapSet s id ⟨b, nd.parent, nd.refInParent⟩
  | none => s

mutual
/-- Modelled from the spec: ownership/rewiring on placement (section 4.3
step 2) — a map-like or sequence-like value is wrapped into a fresh node of
the matching kind over a copy of its contents, recursively re-wrapping
nested values, with `parent` and `reference_in_parent` set to the containing
node and slot; a scalar is stored unchanged. -/
def wrapPlain (s : Store) (p : Option Nat) (r : Option Ref) : Plain → StoredVal × Store
  | .int n => (.scalar n, s)
  | .pdict es =>
      let nid := s.nextId
      let w := wrapEntries ⟨s.heap, nid + 1⟩ nid es
      (.node nid, heapSet w.2 nid ⟨.bdict w.1, p, r⟩)
  | .plist xs =>
      let nid := s.nextId
      let w := wrapItems ⟨s.heap, nid + 1⟩ nid 0 xs
      (.node nid, heapSet w.2 nid ⟨.blist w.1, p, r⟩)

def wrapEntries (s : Store) (nid : Nat) : List (String × Plain) → List (String × StoredVal) × Store
  | [] => ([], s)
  | (k, v) :: rest =>
      let w := wrapPlain s (some nid) (some (.key k)) v
      let wr := wrapEntries w.2 nid rest
      ((k, w.1) :: wr.1, wr.2)

def wrapItems (s : Store) (nid : Nat) (i : Nat) : List Plain → List StoredVal × Store
  | [] => ([], s)
  | v :: rest =>
      let w := wrapPlain s (some nid) (some (.idx i)) v
      let wr := wrapItems w.2 nid (i + 1) rest
      (w.1 :: wr.1, wr.2)
end

/-- Modelled from the spec: unwrapping a stored value back to its plain
structural form for reporting (section 4.2); fuel-indexed recursion through
the node arena. -/
def unwrapAux (s : Store) : Nat → StoredVal → Plain
  | _, .scalar n => .int n
  | 0, .node _ => .int 0
  | fuel + 1, .node id =>
      match heapGet s id with
      | none => .int 0
      | some nd =>
          match nd.backing with
          | .bdict es => .pdict (es.map (fun q => (q.1, unwrapAux s fuel q.2)))
          | .blist xs => .plist (xs.map (unwrapAux s fuel))

/-- Canonical unwrapping, with fuel bounded by the arena size. -/
def unwrapV (s : Store) (v : StoredVal) : Plain := unwrapAux s (s.heap.length + 1) v

/-- Modelled from the spec: the dispatch root — walk from a node up through
`parent` links to its topmost ancestor (section 4.4 step 2). -/
def rootOfAux (s : Store) : Nat → Nat → Nat
  | 0, id => id
  | fuel + 1, id =>
      match heapGet s id with
      | some nd =>
          match nd.parent with
          | some p => rootOfAux s fuel p
          | none => id
      | none => id

def rootIdOf (s : Store) (id : Nat) : Nat := rootOfAux s s.heap.length id

/-- Modelled from the spec: the absolute path of a node — each ancestor's
`reference_in_parent` collected in root-to-leaf order (section 4.4 step 1). -/
def pathOfAux (s : Store) : Nat → Nat → List Ref
  | 0, _ => []
  | fuel + 1, id =>
      match heapGet s id with
      | some nd =>
          match nd.parent, nd.refInParent with
          | some p, some r => pathOfAux s fuel p ++ [r]
          | _, _ => []
      | none => []

def absPath (s : Store) (id : Nat) : List Ref := pathOfAux s s.heap.length id

mutual
/-- Nesting depth of a plain value (fuel budget for unwrapping). -/
def pdepth : Plain → Nat
  | .int _ => 0
  | .pdict es => edepth es + 1
  | .plist xs => ldepth xs + 1

def edepth : List (String × Plain) → Nat
  | [] => 0
  | (_, v) :: rest => max (pdepth v) (edepth rest)

def ldepth : List Plain → Nat
  | [] => 0
  | v :: rest => max (pdepth v) (ldepth rest)
end

mutual
/-- Structural size of a plain value (induction measure). -/
def psize : Plain → Nat
  | .int _ => 1
  | .pdict es => esize es + 1
  | .plist xs => lsize xs + 1

def esize : List (String × Plain) → Nat
  | [] => 0
  | (_, v) :: rest => psize v + esize rest + 1

def lsize : List Plain → Nat
  | [] => 0
  | v :: rest => psize v + lsize rest + 1
end

/-- Association-list lookup in a map backing (insertion order preserved). -/
def entLookup : List (String × StoredVal) → String → Option StoredVal
  | [], _ => none
  | (k0, v0) :: rest, k => if k0 = k then some v0 else entLookup rest k

/-- Set a key in a map backing: replace in place if present, else append
(insertion order discipline of a plain ordered map). -/
def entSet : List (String × StoredVal) → String → StoredVal → List (String × StoredVal)
  | [], k, v => [(k, v)]
  | (k0, v0) :: rest, k, v =>
      if k0 = k then (k, v) :: rest else (k0, v0) :: entSet rest k v

/-- Erase a key from a map backing. -/
def entErase : List (String × StoredVal) → String → List (String × StoredVal)
  | [], _ => []
  | (k0, v0) :: rest, k => if k0 = k then rest else (k0, v0) :: entErase rest k

/-- Set a key in a plain map value (for the non-mutating merge). -/
def pentSet : List (String × Plain) → String → Plain → List (String × Plain)
  | [], k, v => [(k, v)]
  | (k0, v0) :: rest, k, v =>
      if k0 = k then (k, v) :: rest else (k0, v0) :: pentSet rest k v

/-- Modelled from the spec: the contents of the non-mutating map merge —
the left operand's keys in order with values overridden by the right
operand, then the right operand's new keys in order (section 4.5). -/
def mergePlainEntries (a b : List (String × Plain)) : List (String × Plain) :=
  b.foldl (fun acc kv => pentSet acc kv.1 kv.2) a

/-- A slice object: optional start, stop and step. -/
structure PySlice where
  start : Option Int
  stop : Option Int
  step : Option Int

/-- Clip one slice bound against the valid range (conventional extended
slice semantics: negative indices wrap, bounds are clamped). -/
def adjustIndex (len lower upper iv : Int) : Int :=
  if iv < 0 then max (iv + len) lower else min iv upper

/-- Modelled from the spec: normalized `(start, stop, step)` of a slice
against a length, exactly as conventional slice semantics define
(section 4.6, slice-to-index resolution). -/
def sliceParams (sl : PySlice) (len : Nat) : Int × Int × Int :=
  let L : Int := len
  let step := sl.step.getD 1
  let lower : Int := if step < 0 then -1 else 0
  let upper : Int := if step < 0 then L - 1 else L
  let start := match sl.start with
    | none => if step < 0 then upper else lower
    | some iv => adjustIndex L lower upper iv
  let stop := match sl.stop with
    | none => if step < 0 then lower else upper
    | some iv => adjustIndex L lower upper iv
  (start, stop, step)

/-- Enumerate `start, start+step, ...` while inside `stop`, with fuel. -/
def sliceIter (start stop step : Int) : Nat → List Int
  | 0 => []
  | fuel + 1 =>
      if (if 0 < step then start < stop else stop < start) then
        start :: sliceIter (start + step) stop step fuel
      else []

/-- Modelled from the spec: `resolve_slice_to_indexes` — the sequence of
valid indices selected by a slice against the current length, in iteration
order, possibly empty (section 4.6). -/
def resolveSliceIndexes (sl : PySlice) (len : Nat) : List Nat :=
  let q := sliceParams sl len
  if q.2.2 = 0 then [] else (sliceIter q.1 q.2.1 q.2.2 (len + 1)).map Int.toNat

/-- The clamped non-negative start position of a slice (used as the anchor
of a step-1 slice assignment). -/
def sliceStartNat (sl : PySlice) (len : Nat) : Nat := (sliceParams sl len).1.toNat

/-- Keep the elements of a sequence backing whose positions are not among
the resolved indices. -/
def removeIdxs (xs : List StoredVal) (idxs : List Nat) : List StoredVal :=
  (xs.enum.filter (fun q => q.1 ∉ idxs)).map Prod.snd

/-- The elements of a sequence backing at the resolved indices. -/
def selectIdxs (xs : List StoredVal) (idxs : List Nat) : List StoredVal :=
  idxs.filterMap (fun j => xs.get? j)

/-- Modelled from the spec: after a sequence mutation shifts positions,
every wrapped child is re-linked to its containing node at its current
index, keeping `parent`/`reference_in_parent` consistent (section 3
invariants, section 4.3). -/
def reindexFrom (s : Store) (id : Nat) : Nat → List StoredVal → Store
  | _, [] => s
  | i, .scalar _ :: rest => reindexFrom s id (i + 1) rest
  | i, .node m :: rest =>
      let s1 := match heapGet s m with
        | some nd => heapSet s m ⟨nd.backing, some id, some (.idx i)⟩
        | none => s
      reindexFrom s1 id (i + 1) rest

def reindexChildren (s : Store) (id : Nat) (xs : List StoredVal) : Store :=
  reindexFrom s id 0 xs

/-- Modelled from the spec: map element write (section 4.5): classify Add
(absent slot) or Update (present slot, old reported in plain form), detach
any node previously in the slot, wrap the new value parented at the key,
and fire one event. -/
def dictSetE (s : Store) (id : Nat) (k : String) (v : Plain) : Store × List Event :=
  match heapGet s id with
  | some nd =>
      match nd.backing with
      | .bdict es =>
          let root := rootIdOf s id
          let path := absPath s id ++ [Ref.key k]
          match entLookup es k with
          | some ov =>
              let s1 := detachVal s ov
              let w := wrapPlain s1 (some id) (some (Ref.key k)) v
              (setBacking w.2 id (.bdict (entSet es k w.1)),
               [⟨root, .Update, path, some (unwrapV s ov), some v⟩])
          | none =>
              let w := wrapPlain s (some id) (some (Ref.key k)) v
              (setBacking w.2 id (.bdict (entSet es k w.1)),
               [⟨root, .Add, path, none, some v⟩])
      | .blist _ => (s, [])
  | none => (s, [])

/-- Modelled from the spec: map element read (section 4.5): a present key
fires one Access event with old=none, new=none and returns the stored
value; a missing key is a LookupError — no event, no mutation. -/
def dictGetE (s : Store) (id : Nat) (k : String) : Option StoredVal × Store × List Event :=
  match heapGet s id with
  | some nd =>
      match nd.backing with
      | .bdict es =>
          match entLookup es k with
          | some ov =>
              (some ov, s,
               [⟨rootIdOf s id, .Access, absPath s id ++ [Ref.key k], none, none⟩])
          | none => (none, s, [])
      | .blist _ => (none, s, [])
  | none => (none, s, [])

/-- Modelled from the spec: map element deletion (section 4.5): a present
key fires one Remove event with old in plain form, detaches any node in the
slot and erases the key; a missing key is a LookupError — no event, no
mutation. -/
def dictDeleteE (s : Store) (id : Nat) (k : String) : Store × List Event :=
  match heapGet s id with
  | some nd =>
      match nd.backing with
      | .bdict es =>
          match entLookup es k with
          | some ov =>
              (setBacking (detachVal s ov) id (.bdict (entErase es k)),
               [⟨rootIdOf s id, .Remove, absPath s id ++ [Ref.key k], some (unwrapV s ov), none⟩])
          | none => (s, [])
      | .blist _ => (s, [])
  | none => (s, [])

/-- Modelled from the spec: `popitem` (section 4.5): on a non-empty map,
remove and return the most recently inserted key/value pair, firing one
Remove event; on an empty map it is a LookupError-class failure — the
result is none, with no event and no mutation. -/
def dictPopitemE (s : Store) (id : Nat) : Option (String × StoredVal) × Store × List Event :=
  match heapGet s id with
  | some nd =>
      match nd.backing with
      | .bdict es =>
          match es.getLast? with
          | some kv =>
              (some kv,
               setBacking (detachVal s kv.2) id (.bdict es.dropLast),
               [⟨rootIdOf s id, .Remove, absPath s id ++ [Ref.key kv.1],
                 some (unwrapV s kv.2), none⟩])
          | none => (none, s, [])
      | .blist _ => (none, s, [])
  | none => (none, s, [])

/-- Modelled from the spec: non-mutating map merge (section 4.5): produce a
fresh observable container over the unwrapped-then-merged plain contents,
firing no events and leaving the operand untouched. -/
def dictOrE (s : Store) (id : Nat) (other : List (String × Plain)) : Option Nat × Store × List Event :=
  match heapGet s id with
  | some nd =>
      match nd.backing with
      | .bdict es =>
          let merged := mergePlainEntries (es.map (fun q => (q.1, unwrapV s q.2))) other
          let w := wrapPlain s none none (.pdict merged)
          match w.1 with
          | .node m => (some m, w.2, [])
          | .scalar _ => (none, s, [])
      | .blist _ => (none, s, [])
  | none => (none, s, [])

/-- Modelled from the spec: sequence element read (section 4.6): an
in-range index fires one Access event and returns the stored value; an
out-of-range index is a LookupError — no event, no mutation. -/
def listGetE (s : Store) (id : Nat) (i : Nat) : Option StoredVal × Store × List Event :=
  match heapGet s id with
  | some nd =>
      match nd.backing with
      | .blist xs =>
          match xs.get? i with
          | some ov =>
              (some ov, s,
               [⟨rootIdOf s id, .Access, absPath s id ++ [Ref.idx i], none, none⟩])
          | none => (none, s, [])
      | .bdict _ => (none, s, [])
  | none => (none, s, [])

/-- Modelled from the spec: sequence element write at an in-range index
(section 4.6): one Update event with old reported in plain form, the
displaced node detached, the new value wrapped and parented at the index.
An out-of-range index is a LookupError — no event, no mutation. -/
def listSetE (s : Store) (id : Nat) (i : Nat) (v : Plain) : Store × List Event :=
  match heapGet s id with
  | some nd =>
      match nd.backing with
      | .blist xs =>
          match xs.get? i with
          | some ov =>
              let s1 := detachVal s ov
              let w := wrapPlain s1 (some id) (some (Ref.idx i)) v
              (setBacking w.2 id (.blist (xs.set i w.1)),
               [⟨rootIdOf s id, .Update, absPath s id ++ [Ref.idx i],
                 some (unwrapV s ov), some v⟩])
          | none => (s, [])
      | .bdict _ => (s, [])
  | none => (s, [])

/-- Modelled from the spec: sequence insertion core (section 4.6): the
position is clamped to the current length, one Add event fires at the
clamped position, the value is wrapped and parented there, and surviving
children are re-linked to their shifted indices. -/
def listInsertCoreE (s : Store) (id root : Nat) (base : List Ref) (i : Nat) (v : Plain) : Store × List Event :=
  match heapGet s id with
  | some nd =>
      match nd.backing with
      | .blist xs =>
          let pos := min i xs.length
          let w := wrapPlain s (some id) (some (Ref.idx pos)) v
          let xs1 := xs.insertIdx pos w.1
          (reindexChildren (setBacking w.2 id (.blist xs1)) id xs1,
           [⟨root, .Add, base ++ [Ref.idx pos], none, some v⟩])
      | .bdict _ => (s, [])
  | none => (s, [])

def listInsertE (s : Store) (id : Nat) (i : Nat) (v : Plain) : Store × List Event :=
  listInsertCoreE s id (rootIdOf s id) (absPath s id) i v

/-- Modelled from the spec: append — insertion at the current length. -/
def listAppendE (s : Store) (id : Nat) (v : Plain) : Store × List Event :=
  match heapGet s id with
  | some nd =>
      match nd.backing with
      | .blist xs => listInsertCoreE s id (rootIdOf s id) (absPath s id) xs.length v
      | .bdict _ => (s, [])
  | none => (s, [])

/-- Modelled from the spec: sequence element deletion at an in-range index
(section 4.6): one Remove event with old in plain form, the displaced node
detached, and surviving children re-linked to their shifted indices. -/
def listDeleteE (s : Store) (id : Nat) (i : Nat) : Store × List Event :=
  match heapGet s id with
  | some nd =>
      match nd.backing with
      | .blist xs =>
          match xs.get? i with
          | some ov =>
              let xs1 := xs.eraseIdx i
              (reindexChildren (setBacking (detachVal s ov) id (.blist xs1)) id xs1,
               [⟨rootIdOf s id, .Remove, absPath s id ++ [Ref.idx i],
                 some (unwrapV s ov), none⟩])
          | none => (s, [])
      | .bdict _ => (s, [])
  | none => (s, [])

/-- Modelled from the spec: slice deletion core (section 4.6): the resolved
indices are removed in descending order (so lower positions stay valid
while events are computed), one Remove event per removed index with old in
plain form; every removed node is detached and survivors are re-linked. -/
def listSliceDeleteCoreE (s : Store) (id root : Nat) (base : List Ref) (idxs : List Nat) : Store × List Event :=
  match heapGet s id with
  | some nd =>
      match nd.backing with
      | .blist xs =>
          let events := idxs.reverse.filterMap (fun j =>
            (xs.get? j).map (fun ov =>
              ⟨root, .Remove, base ++ [Ref.idx j], some (unwrapV s ov), none⟩))
          let xs1 := removeIdxs xs idxs
          (reindexChildren
            (setBacking (detachVals s (selectIdxs xs idxs)) id (.blist xs1)) id xs1,
           events)
      | .bdict _ => (s, [])
  | none => (s, [])

def listSliceDeleteE (s : Store) (id : Nat) (sl : PySlice) : Store × List Event :=
  match heapGet s id with
  | some nd =>
      match nd.backing with
      | .blist xs =>
          listSliceDeleteCoreE s id (rootIdOf s id) (absPath s id)
            (resolveSliceIndexes sl xs.length)
      | .bdict _ => (s, [])
  | none => (s, [])

/-- Insert a run of values at consecutive positions (step-1 slice
assignment tail), one Add event each. -/
def insertManyE (s : Store) (id root : Nat) (base : List Ref) : Nat → List Plain → Store × List Event
  | _, [] => (s, [])
  | pos, v :: rest =>
      let w := listInsertCoreE s id root base pos v
      let wr := insertManyE w.1 id root base (pos + 1) rest
      (wr.1, w.2 ++ wr.2)

/-- Overwrite a set of in-range positions with wrapped values (extended
slice assignment mutation): per position, detach the displaced value, wrap
the replacement and store it. -/
def setPositions (s : Store) (id : Nat) : List (Nat × Plain) → Store
  | [] => s
  | (j, v) :: rest =>
      let s1 :=
        match heapGet s id with
        | some nd =>
            match nd.backing with
            | .blist xs =>
                match xs.get? j with
                | some ov =>
                    let sa := detachVal s ov
                    let w := wrapPlain sa (some id) (some (Ref.idx j)) v
                    setBacking w.2 id (.blist (xs.set j w.1))
                | none => s
            | .bdict _ => s
        | none => s
      setPositions s1 id rest

/-- Modelled from the spec: slice assignment (section 4.6).  The slice is
resolved to concrete indices against the current length.  For step 1 the
assignment has length-changing semantics: the selected span is removed
(Remove events, descending) and the replacement run is inserted at the
normalized start (Add events, ascending), shifting subsequent elements.
For step different from 1 the replacement length must equal the resolved
index count, else the operation is a ValueError-class failure with no
event and no mutation; on success each resolved position is overwritten
(one Update event per position, old reported in plain form). -/
def listSliceAssignE (s : Store) (id : Nat) (sl : PySlice) (vs : List Plain) : Store × List Event :=
  match heapGet s id with
  | some nd =>
      match nd.backing with
      | .blist xs =>
          let root := rootIdOf s id
          let base := absPath s id
          let idxs := resolveSliceIndexes sl xs.length
          if (sliceParams sl xs.length).2.2 = 1 then
            let w := listSliceDeleteCoreE s id root base idxs
            let wr := insertManyE w.1 id root base (sliceStartNat sl xs.length) vs
            (wr.1, w.2 ++ wr.2)
          else
            if vs.length = idxs.length then
              (setPositions s id (idxs.zip vs),
               (idxs.zip vs).map (fun q =>
                 ⟨root, .Update, base ++ [Ref.idx q.1],
                  (xs.get? q.1).map (unwrapV s), some q.2⟩))
            else (s, [])
      | .bdict _ => (s, [])
  | none => (s, [])

/-- Events of `reverse()`: pairwise Updates over symmetric positions, the
lower index first within each pair, pairs from the outside in. -/
def revEventsAux (root : Nat) (base : List Ref) (olds : List Plain) (n : Nat) : Nat → Nat → List Event
  | 0, _ => []
  | fuel + 1, i =>
      let j := n - 1 - i
      if i < j then
        ⟨root, .Update, base ++ [Ref.idx i], olds.get? i, olds.get? j⟩ ::
        ⟨root, .Update, base ++ [Ref.idx j], olds.get? j, olds.get? i⟩ ::
        revEventsAux root base olds n fuel (i + 1)
      else []

/-- Modelled from the spec: `reverse()` (section 4.6) — a sequence of
pairwise Update events (not Remove+Add) swapping symmetric positions, with
rewiring re-run so wrapped children end up parented at their new index. -/
def listReverseE (s : Store) (id : Nat) : Store × List Event :=
  match heapGet s id with
  | some nd =>
      match nd.backing with
      | .blist xs =>
          let olds := xs.map (unwrapV s)
          let xs1 := xs.reverse
          (reindexChildren (setBacking s id (.blist xs1)) id xs1,
           revEventsAux (rootIdOf s id) (absPath s id) olds xs.length xs.length 0)
      | .bdict _ => (s, [])
  | none => (s, [])

/-- Modelled from the spec: non-mutating sequence concatenation (section
4.6): produce a fresh observable container over the unwrapped contents of
the operand followed by the plain right operand, firing no events and
leaving the operand untouched. -/
def listAddE (s : Store) (id : Nat) (other : List Plain) : Option Nat × Store × List Event :=
  match heapGet s id with
  | some nd =>
      match nd.backing with
      | .blist xs =>
          let w := wrapPlain s none none (.plist (xs.map (unwrapV s) ++ other))
          match w.1 with
          | .node m => (some m, w.2, [])
          | .scalar _ => (none, s, [])
      | .bdict _ => (none, s, [])
  | none => (none, s, [])

/-- Commit one operation: its events extend the pre-callback log (each
event's pre-invocations happen before the corresponding mutation step) and
equally the post-callback log (the post-invocations after it, with the
identical tuple, spec section 4.4 steps 3-5). -/
def commit (st : ObsState) (w : Store × List Event) : ObsState :=
  ⟨w.1, st.preLog ++ w.2, st.postLog ++ w.2⟩

def dictSet (st : ObsState) (id : Nat) (k : String) (v : Plain) : ObsState :=
  commit st (dictSetE st.store id k v)

def dictGet (st : ObsState) (id : Nat) (k : String) : Option StoredVal × ObsState :=
  ((dictGetE st.store id k).1, commit st (dictGetE st.store id k).2)

def dictDelete (st : ObsState) (id : Nat) (k : String) : ObsState :=
  commit st (dictDeleteE st.store id k)

def dictPopitem (st : ObsState) (id : Nat) : Option (String × StoredVal) × ObsState :=
  ((dictPopitemE st.store id).1, commit st (dictPopitemE st.store id).2)

def dictOr (st : ObsState) (id : Nat) (other : List (String × Plain)) : Option Nat × ObsState :=
  ((dictOrE st.store id other).1, commit st (dictOrE st.store id other).2)

def listGet (st : ObsState) (id : Nat) (i : Nat) : Option StoredVal × ObsState :=
  ((listGetE st.store id i).1, commit st (listGetE st.store id i).2)

def listSet (st : ObsState) (id : Nat) (i : Nat) (v : Plain) : ObsState :=
  commit st (listSetE st.store id i v)

def listInsert (st : ObsState) (id : Nat) (i : Nat) (v : Plain) : ObsState :=
  commit st (listInsertE st.store id i v)

def listAppend (st : ObsState) (id : Nat) (v : Plain) : ObsState :=
  commit st (listAppendE st.store id v)

def listDelete (st : ObsState) (id : Nat) (i : Nat) : ObsState :=
  commit st (listDeleteE st.store id i)

def listSliceDelete (st : ObsState) (id : Nat) (sl : PySlice) : ObsState :=
  commit st (listSliceDeleteE st.store id sl)

def listSliceAssign (st : ObsState) (id : Nat) (sl : PySlice) (vs : List Plain) : ObsState :=
  commit st (listSliceAssignE st.store id sl vs)

def listReverse (st : ObsState) (id : Nat) : ObsState :=
  commit st (listReverseE st.store id)

def listAdd (st : ObsState) (id : Nat) (other : List Plain) : Option Nat × ObsState :=
  ((listAddE st.store id other).1, commit st (listAddE st.store id other).2)

/-- The empty model state: no nodes, no recorded callback invocations. -/
def initState : ObsState := ⟨⟨[], 0⟩, [], []⟩

/-- Modelled from the spec: construction of an observable container from a
plain source (section 6): contents are copied and nested values recursively
wrapped and parented; construction fires no events.  Returns the id of the
new root node (`parent = none`). -/
def newStruct (st : ObsState) (v : Plain) : Nat × ObsState :=
  let w := wrapPlain st.store none none v
  ((match w.1 with | .node m => m | .scalar _ => 0), { st with store := w.2 })

/-- The plain structural form of a whole container. -/
def plainOf (st : ObsState) (id : Nat) : Plain := unwrapV st.store (.node id)

/-- One operation of the public surface, for statements quantifying over
every access or mutation. -/
inductive AnyOp where
  | dGet (id : Nat) (k : String)
  | dSet (id : Nat) (k : String) (v : Plain)
  | dDel (id : Nat) (k : String)
  | dPop (id : Nat)
  | dOr (id : Nat) (other : List (String × Plain))
  | lGet (id : Nat) (i : Nat)
  | lSet (id : Nat) (i : Nat) (v : Plain)
  | lDel (id : Nat) (i : Nat)
  | lIns (id : Nat) (i : Nat) (v : Plain)
  | lApp (id : Nat) (v : Plain)
  | lRev (id : Nat)
  | lSlSet (id : Nat) (sl : PySlice) (vs : List Plain)
  | lSlDel (id : Nat) (sl : PySlice)
  | lCat (id : Nat) (other : List Plain)

/-- The node on which an operation locally occurs. -/
def AnyOp.target : AnyOp → Nat
  | .dGet id _ => id
  | .dSet id _ _ => id
  | .dDel id _ => id
  | .dPop id => id
  | .dOr id _ => id
  | .lGet id _ => id
  | .lSet id _ _ => id
  | .lDel id _ => id
  | .lIns id _ _ => id
  | .lApp id _ => id
  | .lRev id => id
  | .lSlSet id _ _ => id
  | .lSlDel id _ => id
  | .lCat id _ => id

/-- Run any operation for its effect on the store and its events. -/
def runOpE (s : Store) : AnyOp → Store × List Event
  | .dGet id k => (dictGetE s id k).2
  | .dSet id k v => dictSetE s id k v
  | .dDel id k => dictDeleteE s id k
  | .dPop id => (dictPopitemE s id).2
  | .dOr id other => (dictOrE s id other).2
  | .lGet id i => (listGetE s id i).2
  | .lSet id i v => listSetE s id i v
  | .lDel id i => listDeleteE s id i
  | .lIns id i v => listInsertE s id i v
  | .lApp id v => listAppendE s id v
  | .lRev id => listReverseE s id
  | .lSlSet id sl vs => listSliceAssignE s id sl vs
  | .lSlDel id sl => listSliceDeleteE s id sl
  | .lCat id other => (listAddE s id other).2

/-- Run any operation at the observable-state level. -/
def runOp (st : ObsState) (op : AnyOp) : ObsState := commit st (runOpE st.store op)

theorem heapFind_put_same (l : List (Nat × Node)) (id : Nat) (nd : Node) :
    heapFind (heapPut l id nd) id = some nd := by
  induction l with
  | nil => simp [heapPut, heapFind]
  | cons q rest ih =>
      obtain ⟨m, nd0⟩ := q
      by_cases h : m = id
      · simp [heapPut, h, heapFind]
      · simp [heapPut, h, heapFind, ih]

theorem heapFind_put_other (l : List (Nat × Node)) (id m : Nat) (nd : Node)
    (h : m ≠ id) : heapFind (heapPut l id nd) m = heapFind l m := by
  have h2 : ¬ id = m := fun hh => h hh.symm
  induction l with
  | nil => simp [heapPut, heapFind, h2]
  | cons q rest ih =>
      obtain ⟨m0, nd0⟩ := q
      by_cases h0 : m0 = id
      · subst h0
        simp [heapPut, heapFind, h2]
      · simp [heapPut, h0, heapFind, ih]

theorem heapFind_some_mem (l : List (Nat × Node)) (n : Nat) (nd : Node)
    (h : heapFind l n = some nd) : (n, nd) ∈ l := by
  induction l with
  | nil => simp [heapFind] at h
  | cons q rest ih =>
      obtain ⟨m, nd0⟩ := q
      by_cases h0 : m = n
      · subst h0
        simp [heapFind] at h
        simp [h]
      · simp [heapFind, h0] at h
        exact List.mem_cons_of_mem _ (ih h)

theorem heapPut_mem (l : List (Nat × Node)) (id : Nat) (nd : Node)
    (q : Nat × Node) (h : q ∈ heapPut l id nd) : q = (id, nd) ∨ q ∈ l := by
  induction l with
  | nil => simp [heapPut] at h; simp [h]
  | cons q0 rest ih =>
      obtain ⟨m, nd0⟩ := q0
      by_cases h0 : m = id
      · simp [heapPut, h0] at h
        rcases h with h | h
        · left; simp [h]
        · right; exact List.mem_cons_of_mem _ h
      · simp [heapPut, h0] at h
        rcases h with h | h
        · right; simp [h]
        · rcases ih h with h1 | h1
          · left; exact h1
          · right; exact List.mem_cons_of_mem _ h1

theorem heapPut_length_of_none (l : List (Nat × Node)) (id : Nat) (nd : Node)
    (h : heapFind l id = none) : (heapPut l id nd).length = l.length + 1 := by
  induction l with
  | nil => simp [heapPut]
  | cons q rest ih =>
      obtain ⟨m, nd0⟩ := q
      by_cases h0 : m = id
      · simp [heapFind, h0] at h
      · simp [heapFind, h0] at h
        simp [heapPut, h0, ih h]

theorem heapGet_set_same (s : Store) (id : Nat) (nd : Node) :
    heapGet (heapSet s id nd) id = some nd := heapFind_put_same s.heap id nd

theorem heapGet_set_other (s : Store) (id m : Nat) (nd : Node) (h : m ≠ id) :
    heapGet (heapSet s id nd) m = heapGet s m := heapFind_put_other s.heap id m nd h

theorem heapSet_nextId (s : Store) (id : Nat) (nd : Node) :
    (heapSet s id nd).nextId = s.nextId := rfl

theorem heapGet_some_lt (s : Store) (hb : idsBounded s) (n : Nat) (nd : Node)
    (h : heapGet s n = some nd) : n < s.nextId :=
  hb (n, nd) (heapFind_some_mem s.heap n nd h)

theorem heapGet_none_of_bounded (s : Store) (hb : idsBounded s) (n : Nat)
    (h : s.nextId ≤ n) : heapGet s n = none := by
  cases hg : heapGet s n with
  | none => rfl
  | some nd => exact absurd (heapGet_some_lt s hb n nd hg) (by omega)

theorem idsBounded_heapSet (s : Store) (id : Nat) (nd : Node)
    (hb : idsBounded s) (hid : id < s.nextId) : idsBounded (heapSet s id nd) := by
  intro q hq
  rcases heapPut_mem s.heap id nd q hq with h | h
  · subst h; exact hid
  · exact hb q h

theorem heapSet_length_of_fresh (s : Store) (id : Nat) (nd : Node)
    (h : heapGet s id = none) : (heapSet s id nd).heap.length = s.heap.length + 1 :=
  heapPut_length_of_none s.heap id nd h

theorem idsBounded_raiseNext (s : Store) (n : Nat) (hb : idsBounded s)
    (h : s.nextId ≤ n) : idsBounded ⟨s.heap, n⟩ := by
  intro q hq
  exact lt_of_lt_of_le (hb q hq) h

/-- `sB` agrees with `sA` on every id in `[lo, hi)`. -/
def agreesOn (sA sB : Store) (lo hi : Nat) : Prop :=
  ∀ n, lo ≤ n → n < hi → heapGet sB n = heapGet sA n

theorem agreesOn_refl (sA : Store) (lo hi : Nat) : agreesOn sA sA lo hi :=
  fun _ _ _ => rfl

/-- Everything the rewiring step guarantees about wrapping one plain value:
freshness discipline is preserved, pre-existing nodes are untouched, the
arena grows by at least the value's depth, unwrapping the result in any
store that agrees on the freshly allocated range gives the value back, and
a container value becomes a fresh node linked to the given parent/slot. -/
structure WrapOut (s : Store) (p : Option Nat) (r : Option Ref) (v : Plain)
    (sv : StoredVal) (s1 : Store) : Prop where
  bounded : idsBounded s1
  mono : s.nextId ≤ s1.nextId
  keep : ∀ n, n < s.nextId → heapGet s1 n = heapGet s n
  grow : s.heap.length + pdepth v ≤ s1.heap.length
  unwrapEq : ∀ s2 fuel, agreesOn s1 s2 s.nextId s1.nextId → pdepth v ≤ fuel →
      unwrapAux s2 fuel sv = v
  fresh : ∀ m, sv = .node m →
      m = s.nextId ∧ m < s1.nextId ∧ ∃ b, heapGet s1 m = some ⟨b, p, r⟩

/-- The same guarantees for wrapping a run of map entries. -/
structure EntriesOut (s : Store) (nid : Nat) (es : List (String × Plain))
    (svs : List (String × StoredVal)) (s1 : Store) : Prop where
  bounded : idsBounded s1
  mono : s.nextId ≤ s1.nextId
  keep : ∀ n, n < s.nextId → heapGet s1 n = heapGet s n
  grow : s.heap.length + edepth es ≤ s1.heap.length
  unwrapEq : ∀ s2 fuel, agreesOn s1 s2 s.nextId s1.nextId → edepth es ≤ fuel →
      svs.map (fun q => (q.1, unwrapAux s2 fuel q.2)) = es

/-- The same guarantees for wrapping a run of sequence items. -/
structure ItemsOut (s : Store) (nid : Nat) (xs : List Plain)
    (svs : List StoredVal) (s1 : Store) : Prop where
  bounded : idsBounded s1
  mono : s.nextId ≤ s1.nextId
  keep : ∀ n, n < s.nextId → heapGet s1 n = heapGet s n
  grow : s.heap.length + ldepth xs ≤ s1.heap.length
  unwrapEq : ∀ s2 fuel, agreesOn s1 s2 s.nextId s1.nextId → ldepth xs ≤ fuel →
      svs.map (unwrapAux s2 fuel) = xs

theorem psize_pos (v : Plain) : 1 ≤ psize v := by
  cases v <;> simp [psize]

theorem wrapSpecAll : ∀ N : Nat,
    (∀ v s p r, psize v ≤ N → idsBounded s →
      WrapOut s p r v (wrapPlain s p r v).1 (wrapPlain s p r v).2) ∧
    (∀ es s nid, esize es ≤ N → idsBounded s →
      EntriesOut s nid es (wrapEntries s nid es).1 (wrapEntries s nid es).2) ∧
    (∀ xs s nid i, lsize xs ≤ N → idsBounded s →
      ItemsOut s nid xs (wrapItems s nid i xs).1 (wrapItems s nid i xs).2) := by
  intro N
  induction N with
  | zero =>
      refine ⟨?_, ?_, ?_⟩
      · intro v s p r hsz _
        exact absurd (le_trans (psize_pos v) hsz) (by omega)
      · intro es s nid hsz hb
        cases es with
        | nil =>
            refine ⟨hb, le_refl _, fun n _ => rfl, ?_, ?_⟩
            · simp [edepth, wrapEntries]
            · intro s2 fuel _ _; simp [wrapEntries]
        | cons q rest =>
            obtain ⟨k, v⟩ := q
            exfalso
            have := psize_pos v
            simp [esize] at hsz
      · intro xs s nid i hsz hb
        cases xs with
        | nil =>
            refine ⟨hb, le_refl _, fun n _ => rfl, ?_, ?_⟩
            · simp [ldepth, wrapItems]
            · intro s2 fuel _ _; simp [wrapItems]
        | cons v rest =>
            exfalso
            have := psize_pos v
            simp [lsize] at hsz
  | succ N ih =>
      obtain ⟨ihP, ihE, ihL⟩ := ih
      refine ⟨?_, ?_, ?_⟩
      · -- one plain value
        intro v s p r hsz hb
        cases v with
        | int n =>
            refine ⟨hb, le_refl _, fun n _ => rfl, ?_, ?_, ?_⟩
            · simp [pdepth, wrapPlain]
            · intro s2 fuel _ _; simp [wrapPlain, unwrapAux]
            · intro m hm; simp [wrapPlain] at hm
        | pdict es =>
            have hes : esize es ≤ N := by simp [psize] at hsz; omega
            have hbA : idsBounded (⟨s.heap, s.nextId + 1⟩ : Store) :=
              idsBounded_raiseNext s (s.nextId + 1) hb (by omega)
            have E := ihE es ⟨s.heap, s.nextId + 1⟩ s.nextId hes hbA
            set sA : Store := ⟨s.heap, s.nextId + 1⟩ with hsA
            set w := wrapEntries sA s.nextId es with hw
            have hnextA : sA.nextId = s.nextId + 1 := rfl
            have hnidlt : s.nextId < w.2.nextId := lt_of_lt_of_le (by omega) E.mono
            have hgetnid : heapGet w.2 s.nextId = none := by
              rw [E.keep s.nextId (by omega)]
              exact heapGet_none_of_bounded s hb s.nextId (le_refl _)
            have hq : wrapPlain s p r (.pdict es) =
                (.node s.nextId, heapSet w.2 s.nextId ⟨.bdict w.1, p, r⟩) := rfl
            rw [hq]
            refine ⟨?_, ?_, ?_, ?_, ?_, ?_⟩
            · exact idsBounded_heapSet w.2 s.nextId _ E.bounded hnidlt
            · show s.nextId ≤ (heapSet w.2 s.nextId _).nextId
              rw [heapSet_nextId]; omega
            · intro n hn
              rw [heapGet_set_other w.2 s.nextId n _ (by omega)]
              exact E.keep n (by omega)
            · show s.heap.length + pdepth (.pdict es) ≤ (heapSet w.2 s.nextId _).heap.length
              rw [heapSet_length_of_fresh w.2 s.nextId _ hgetnid]
              have := E.grow
              simp [pdepth] at *
              omega
            · intro s2 fuel hag hfuel
              simp [pdepth] at hfuel
              obtain ⟨f, rfl⟩ : ∃ f, fuel = f + 1 := ⟨fuel - 1, by omega⟩
              have hget2 : heapGet s2 s.nextId = some ⟨.bdict w.1, p, r⟩ := by
                rw [hag s.nextId (le_refl _) (by rw [heapSet_nextId]; omega)]
                exact heapGet_set_same w.2 s.nextId _
              have hagE : agreesOn w.2 s2 sA.nextId w.2.nextId := by
                intro n hlo hhi
                rw [hag n (by omega) (by rw [heapSet_nextId]; omega)]
                exact heapGet_set_other w.2 s.nextId n _ (by omega)
              have := E.unwrapEq s2 f hagE (by omega)
              simp [unwrapAux, hget2, this]
            · intro m hm
              have h2 : StoredVal.node s.nextId = StoredVal.node m := hm
              injection h2 with h3
              subst h3
              exact ⟨rfl, by rw [heapSet_nextId]; omega,
                ⟨.bdict w.1, heapGet_set_same w.2 s.nextId _⟩⟩
        | plist xs =>
            have hxs : lsize xs ≤ N := by simp [psize] at hsz; omega
            have hbA : idsBounded (⟨s.heap, s.nextId + 1⟩ : Store) :=
              idsBounded_raiseNext s (s.nextId + 1) hb (by omega)
            have E := ihL xs ⟨s.heap, s.nextId + 1⟩ s.nextId 0 hxs hbA
            set sA : Store := ⟨s.heap, s.nextId + 1⟩ with hsA
            set w := wrapItems sA s.nextId 0 xs with hw
            have hnextA : sA.nextId = s.nextId + 1 := rfl
            have hnidlt : s.nextId < w.2.nextId := lt_of_lt_of_le (by omega) E.mono
            have hgetnid : heapGet w.2 s.nextId = none := by
              rw [E.keep s.nextId (by omega)]
              exact heapGet_none_of_bounded s hb s.nextId (le_refl _)
            have hq : wrapPlain s p r (.plist xs) =
                (.node s.nextId, heapSet w.2 s.nextId ⟨.blist w.1, p, r⟩) := rfl
            rw [hq]
            refine ⟨?_, ?_, ?_, ?_, ?_, ?_⟩
            · exact idsBounded_heapSet w.2 s.nextId _ E.bounded hnidlt
            · show s.nextId ≤ (heapSet w.2 s.nextId _).nextId
              rw [heapSet_nextId]; omega
            · intro n hn
              rw [heapGet_set_other w.2 s.nextId n _ (by omega)]
              exact E.keep n (by omega)
            · show s.heap.length + pdepth (.plist xs) ≤ (heapSet w.2 s.nextId _).heap.length
              rw [heapSet_length_of_fresh w.2 s.nextId _ hgetnid]
              have := E.grow
              simp [pdepth] at *
              omega
            · intro s2 fuel hag hfuel
              simp [pdepth] at hfuel
              obtain ⟨f, rfl⟩ : ∃ f, fuel = f + 1 := ⟨fuel - 1, by omega⟩
              have hget2 : heapGet s2 s.nextId = some ⟨.blist w.1, p, r⟩ := by
                rw [hag s.nextId (le_refl _) (by rw [heapSet_nextId]; omega)]
                exact heapGet_set_same w.2 s.nextId _
              have hagE : agreesOn w.2 s2 sA.nextId w.2.nextId := by
                intro n hlo hhi
                rw [hag n (by omega) (by rw [heapSet_nextId]; omega)]
                exact heapGet_set_other w.2 s.nextId n _ (by omega)
              have := E.unwrapEq s2 f hagE (by omega)
              simp [unwrapAux, hget2, this]
            · intro m hm
              have h2 : StoredVal.node s.nextId = StoredVal.node m := hm
              injection h2 with h3
              subst h3
              exact ⟨rfl, by rw [heapSet_nextId]; omega,
                ⟨.blist w.1, heapGet_set_same w.2 s.nextId _⟩⟩
      · -- a run of entries
        intro es s nid hsz hb
        cases es with
        | nil =>
            refine ⟨hb, le_refl _, fun n _ => rfl, ?_, ?_⟩
            · simp [edepth, wrapEntries]
            · intro s2 fuel _ _; simp [wrapEntries]
        | cons q rest =>
            obtain ⟨k, v⟩ := q
            have hv : psize v ≤ N := by simp [esize] at hsz; omega
            have hr : esize rest ≤ N := by simp [esize] at hsz; omega
            have W := ihP v s (some nid) (some (.key k)) hv hb
            set w := wrapPlain s (some nid) (some (Ref.key k)) v with hwdef
            have E := ihE rest w.2 nid hr W.bounded
            set wr := wrapEntries w.2 nid rest with hwrdef
            have hq : wrapEntries s nid ((k, v) :: rest) = ((k, w.1) :: wr.1, wr.2) := rfl
            rw [hq]
            refine ⟨E.bounded, le_trans W.mono E.mono, ?_, ?_, ?_⟩
            · intro n hn
              rw [E.keep n (lt_of_lt_of_le hn W.mono)]
              exact W.keep n hn
            · have h1 := W.grow
              have h2 := E.grow
              have h3 : max (pdepth v) (edepth rest) ≤ pdepth v + edepth rest :=
                max_le (Nat.le_add_right _ _) (Nat.le_add_left _ _)
              simp [edepth]
              omega
            · intro s2 fuel hag hfuel
              simp [edepth] at hfuel
              have hagW : agreesOn w.2 s2 s.nextId w.2.nextId := by
                intro n hlo hhi
                rw [hag n hlo (lt_of_lt_of_le hhi E.mono)]
                exact E.keep n hhi
              have hagE : agreesOn wr.2 s2 w.2.nextId wr.2.nextId := by
                intro n hlo hhi
                exact hag n (le_trans W.mono hlo) hhi
              have h1 := W.unwrapEq s2 fuel hagW (by omega)
              have h2 := E.unwrapEq s2 fuel hagE (by omega)
              simp [h1, h2]
      · -- a run of items
        intro xs s nid i hsz hb
        cases xs with
        | nil =>
            refine ⟨hb, le_refl _, fun n _ => rfl, ?_, ?_⟩
            · simp [ldepth, wrapItems]
            · intro s2 fuel _ _; simp [wrapItems]
        | cons v rest =>
            have hv : psize v ≤ N := by simp [lsize] at hsz; omega
            have hr : lsize rest ≤ N := by simp [lsize] at hsz; omega
            have W := ihP v s (some nid) (some (.idx i)) hv hb
            set w := wrapPlain s (some nid) (some (Ref.idx i)) v with hwdef
            have E := ihL rest w.2 nid (i + 1) hr W.bounded
            set wr := wrapItems w.2 nid (i + 1) rest with hwrdef
            have hq : wrapItems s nid i (v :: rest) = (w.1 :: wr.1, wr.2) := rfl
            rw [hq]
            refine ⟨E.bounded, le_trans W.mono E.mono, ?_, ?_, ?_⟩
            · intro n hn
              rw [E.keep n (lt_of_lt_of_le hn W.mono)]
              exact W.keep n hn
            · have h1 := W.grow
              have h2 := E.grow
              have h3 : max (pdepth v) (ldepth rest) ≤ pdepth v + ldepth rest :=
                max_le (Nat.le_add_right _ _) (Nat.le_add_left _ _)
              simp [ldepth]
              omega
            · intro s2 fuel hag hfuel
              simp [ldepth] at hfuel
              have hagW : agreesOn w.2 s2 s.nextId w.2.nextId := by
                intro n hlo hhi
                rw [hag n hlo (lt_of_lt_of_le hhi E.mono)]
                exact E.keep n hhi
              have hagE : agreesOn wr.2 s2 w.2.nextId wr.2.nextId := by
                intro n hlo hhi
                exact hag n (le_trans W.mono hlo) hhi
              have h1 := W.unwrapEq s2 fuel hagW (by omega)
              have h2 := E.unwrapEq s2 fuel hagE (by omega)
              simp [h1, h2]

/-- The rewiring guarantees, for any single plain value. -/
theorem wrapPlain_spec (v : Plain) (s : Store) (p : Option Nat) (r : Option Ref)
    (hb : idsBounded s) :
    WrapOut s p r v (wrapPlain s p r v).1 (wrapPlain s p r v).2 :=
  (wrapSpecAll (psize v)).1 v s p r (le_refl _) hb

theorem entLookup_entSet_same (es : List (String × StoredVal)) (k : String) (v : StoredVal) :
    entLookup (entSet es k v) k = some v := by
  induction es with
  | nil => simp [entSet, entLookup]
  | cons q rest ih =>
      obtain ⟨k0, v0⟩ := q
      by_cases h : k0 = k
      · simp [entSet, h, entLookup]
      · simp [entSet, h, entLookup, ih]

theorem mem_of_getLastQ {α : Type} (l : List α) (a : α) (h : l.getLast? = some a) :
    a ∈ l := by
  induction l with
  | nil => simp [List.getLast?] at h
  | cons x rest ih =>
      cases rest with
      | nil =>
          simp [List.getLast?] at h
          simp [h]
      | cons y rest2 =>
          rw [List.getLast?_cons_cons] at h
          exact List.mem_cons_of_mem _ (ih h)

theorem entLookup_dropLast_none (es : List (String × StoredVal)) (k : String) (v : StoredVal)
    (hlast : es.getLast? = some (k, v)) (hnd : (es.map Prod.fst).Nodup) :
    entLookup es.dropLast k = none := by
  induction es with
  | nil => simp [List.getLast?] at hlast
  | cons q rest ih =>
      obtain ⟨k0, v0⟩ := q
      cases rest with
      | nil => simp [entLookup]
      | cons q1 rest2 =>
          rw [List.getLast?_cons_cons] at hlast
          have hmem : (k, v) ∈ q1 :: rest2 := mem_of_getLastQ _ _ hlast
          have hk : k ∈ (q1 :: rest2).map Prod.fst :=
            List.mem_map_of_mem Prod.fst hmem
          have hnd2 := List.nodup_cons.mp hnd
          have hk0 : k0 ≠ k := by
            intro hh
            subst hh
            exact hnd2.1 hk
          have hdl : ((k0, v0) :: q1 :: rest2).dropLast = (k0, v0) :: (q1 :: rest2).dropLast := by
            simp [List.dropLast]
          rw [hdl]
          simp [entLookup, hk0]
          exact ih hlast hnd2.2

theorem detachId_nextId (s : Store) (m : Nat) : (detachId s m).nextId = s.nextId := by
  unfold detachId
  cases heapGet s m <;> rfl

theorem detachVal_nextId (s : Store) (v : StoredVal) : (detachVal s v).nextId = s.nextId := by
  cases v with
  | scalar n => rfl
  | node m => exact detachId_nextId s m

theorem detachId_get_same (s : Store) (m : Nat) (nm : Node)
    (h : heapGet s m = some nm) :
    heapGet (detachId s m) m = some ⟨nm.backing, none, none⟩ := by
  unfold detachId
  rw [h]
  exact heapGet_set_same s m _

theorem detachId_get_other (s : Store) (m n : Nat) (h : n ≠ m) :
    heapGet (detachId s n) m = heapGet s m := by
  unfold detachId
  cases hg : heapGet s n with
  | none => rfl
  | some nd => exact heapGet_set_other s n m _ (fun hh => h hh.symm)

theorem detachVal_get_other (s : Store) (v : StoredVal) (m : Nat)
    (h : ∀ m2, v = .node m2 → m2 ≠ m) :
    heapGet (detachVal s v) m = heapGet s m := by
  cases v with
  | scalar n => rfl
  | node m2 =>
      show heapGet (detachId s m2) m = heapGet s m
      exact detachId_get_other s m m2 (h m2 rfl)

theorem idsBounded_detachId (s : Store) (m : Nat) (hb : idsBounded s) :
    idsBounded (detachId s m) := by
  unfold detachId
  cases hg : heapGet s m with
  | none => exact hb
  | some nd => exact idsBounded_heapSet s m _ hb (heapGet_some_lt s hb m nd hg)

theorem idsBounded_detachVal (s : Store) (v : StoredVal) (hb : idsBounded s) :
    idsBounded (detachVal s v) := by
  cases v with
  | scalar n => exact hb
  | node m => exact idsBounded_detachId s m hb

theorem detachVals_keeps_orphan (vs : List StoredVal) (s : Store) (m : Nat) (b : Backing)
    (h : heapGet s m = some ⟨b, none, none⟩) :
    heapGet (detachVals s vs) m = some ⟨b, none, none⟩ := by
  induction vs generalizing s with
  | nil => exact h
  | cons v rest ih =>
      apply ih
      cases v with
      | scalar n => exact h
      | node m2 =>
          show heapGet (detachId s m2) m = some ⟨b, none, none⟩
          by_cases hm : m2 = m
          · subst hm
            exact detachId_get_same s m2 _ h
          · rw [detachId_get_other s m m2 hm]
            exact h

theorem detachVals_orphan (vs : List StoredVal) (s : Store) (m : Nat) (nm : Node)
    (hmem : StoredVal.node m ∈ vs) (h : heapGet s m = some nm) :
    heapGet (detachVals s vs) m = some ⟨nm.backing, none, none⟩ := by
  induction vs generalizing s nm with
  | nil => simp at hmem
  | cons v rest ih =>
      rcases List.mem_cons.mp hmem with hv | hv
      · subst hv
        exact detachVals_keeps_orphan rest _ m nm.backing (detachId_get_same s m nm h)
      · cases v with
        | scalar n => exact ih _ _ hv h
        | node m2 =>
            show heapGet (detachVals (detachId s m2) rest) m = _
            by_cases hm : m2 = m
            · subst hm
              exact detachVals_keeps_orphan rest _ m2 nm.backing (detachId_get_same s m2 nm h)
            · apply ih _ _ hv
              rw [detachId_get_other s m m2 hm]
              exact h

theorem setBacking_get_other (s : Store) (id m : Nat) (b : Backing) (h : m ≠ id) :
    heapGet (setBacking s id b) m = heapGet s m := by
  unfold setBacking
  cases hg : heapGet s id with
  | none => rfl
  | some nd => exact heapGet_set_other s id m _ h

theorem setBacking_get_same (s : Store) (id : Nat) (nd : Node) (b : Backing)
    (h : heapGet s id = some nd) :
    heapGet (setBacking s id b) id = some ⟨b, nd.parent, nd.refInParent⟩ := by
  unfold setBacking
  rw [h]
  exact heapGet_set_same s id _

theorem reindexFrom_get_other (xs : List StoredVal) (s : Store) (id i m : Nat)
    (h : StoredVal.node m ∉ xs) :
    heapGet (reindexFrom s id i xs) m = heapGet s m := by
  induction xs generalizing s i with
  | nil => rfl
  | cons v rest ih =>
      have hv : v ≠ StoredVal.node m := fun hh => h (hh ▸ List.mem_cons_self v rest)
      have hrest : StoredVal.node m ∉ rest := fun hh => h (List.mem_cons_of_mem v hh)
      cases v with
      | scalar n => exact ih _ _ hrest
      | node m2 =>
          have hm2 : m2 ≠ m := fun hh => hv (by rw [hh])
          show heapGet (reindexFrom _ id (i + 1) rest) m = heapGet s m
          rw [ih _ _ hrest]
          cases hg : heapGet s m2 with
          | none => simp [hg]
          | some nd =>
              simp [hg]
              exact heapGet_set_other s m2 m _ (fun hh => hm2 hh.symm)

theorem revEventsAux_root (root : Nat) (base : List Ref) (olds : List Plain) (n : Nat) :
    ∀ fuel i e, e ∈ revEventsAux root base olds n fuel i → e.root = root := by
  intro fuel
  induction fuel with
  | zero => intro i e he; simp [revEventsAux] at he
  | succ f ih =>
      intro i e he
      simp only [revEventsAux] at he
      split at he
      · rcases List.mem_cons.mp he with h1 | h1
        · simp [h1]
        · rcases List.mem_cons.mp h1 with h2 | h2
          · simp [h2]
          · exact ih (i + 1) e h2
      · simp at he

theorem listInsertCoreE_root (s : Store) (id root : Nat) (base : List Ref)
    (i : Nat) (v : Plain) :
    ∀ e ∈ (listInsertCoreE s id root base i v).2, e.root = root := by
  intro e he
  unfold listInsertCoreE at he
  split at he
  · split at he
    · simp at he; simp [he]
    · simp at he
  · simp at he

theorem insertManyE_root (id root : Nat) (base : List Ref) :
    ∀ (vs : List Plain) (s : Store) (pos : Nat),
      ∀ e ∈ (insertManyE s id root base pos vs).2, e.root = root := by
  intro vs
  induction vs with
  | nil => intro s pos e he; simp [insertManyE] at he
  | cons v rest ih =>
      intro s pos e he
      simp only [insertManyE] at he
      rcases List.mem_append.mp he with h1 | h1
      · exact listInsertCoreE_root _ _ _ _ _ _ e h1
      · exact ih _ _ e h1

theorem listSliceDeleteCoreE_root (s : Store) (id root : Nat) (base : List Ref)
    (idxs : List Nat) :
    ∀ e ∈ (listSliceDeleteCoreE s id root base idxs).2, e.root = root := by
  intro e he
  unfold listSliceDeleteCoreE at he
  split at he
  · split at he
    · simp only [List.mem_filterMap] at he
      obtain ⟨j, _, hj⟩ := he
      simp only [Option.map_eq_some'] at hj
      obtain ⟨ov, _, hov⟩ := hj
      simp [← hov]
    · simp at he
  · simp at he

theorem dictGetE_root (s : Store) (id : Nat) (k : String) :
    ∀ e ∈ (dictGetE s id k).2.2, e.root = rootIdOf s id := by
  intro e he
  unfold dictGetE at he
  split at he
  · split at he
    · split at he
      · simp at he; simp [he]
      · simp at he
    · simp at he
  · simp at he

theorem dictSetE_root (s : Store) (id : Nat) (k : String) (v : Plain) :
    ∀ e ∈ (dictSetE s id k v).2, e.root = rootIdOf s id := by
  intro e he
  unfold dictSetE at he
  split at he
  · split at he
    · split at he
      · simp at he; simp [he]
      · simp at he; simp [he]
    · simp at he
  · simp at he

theorem dictDeleteE_root (s : Store) (id : Nat) (k : String) :
    ∀ e ∈ (dictDeleteE s id k).2, e.root = rootIdOf s id := by
  intro e he
  unfold dictDeleteE at he
  split at he
  · split at he
    · split at he
      · simp at he; simp [he]
      · simp at he
    · simp at he
  · simp at he

theorem dictPopitemE_root (s : Store) (id : Nat) :
    ∀ e ∈ (dictPopitemE s id).2.2, e.root = rootIdOf s id := by
  intro e he
  unfold dictPopitemE at he
  split at he
  · split at he
    · split at he
      · simp at he; simp [he]
      · simp at he
    · simp at he
  · simp at he

theorem dictOrE_events (s : Store) (id : Nat) (other : List (String × Plain)) :
    (dictOrE s id other).2.2 = [] := by
  unfold dictOrE
  repeat' split
  all_goals rfl

theorem listGetE_root (s : Store) (id i : Nat) :
    ∀ e ∈ (listGetE s id i).2.2, e.root = rootIdOf s id := by
  intro e he
  unfold listGetE at he
  split at he
  · split at he
    · split at he
      · simp at he; simp [he]
      · simp at he
    · simp at he
  · simp at he

theorem listSetE_root (s : Store) (id i : Nat) (v : Plain) :
    ∀ e ∈ (listSetE s id i v).2, e.root = rootIdOf s id := by
  intro e he
  unfold listSetE at he
  split at he
  · split at he
    · split at he
      · simp at he; simp [he]
      · simp at he
    · simp at he
  · simp at he

theorem listDeleteE_root (s : Store) (id i : Nat) :
    ∀ e ∈ (listDeleteE s id i).2, e.root = rootIdOf s id := by
  intro e he
  unfold listDeleteE at he
  split at he
  · split at he
    · split at he
      · simp at he; simp [he]
      · simp at he
    · simp at he
  · simp at he

theorem listInsertE_root (s : Store) (id i : Nat) (v : Plain) :
    ∀ e ∈ (listInsertE s id i v).2, e.root = rootIdOf s id := by
  intro e he
  exact listInsertCoreE_root s id _ _ i v e he

theorem listAppendE_root (s : Store) (id : Nat) (v : Plain) :
    ∀ e ∈ (listAppendE s id v).2, e.root = rootIdOf s id := by
  intro e he
  unfold listAppendE at he
  split at he
  · split at he
    · exact listInsertCoreE_root s id _ _ _ v e he
    · simp at he
  · simp at he

theorem listReverseE_root (s : Store) (id : Nat) :
    ∀ e ∈ (listReverseE s id).2, e.root = rootIdOf s id := by
  intro e he
  unfold listReverseE at he
  split at he
  · split at he
    · exact revEventsAux_root _ _ _ _ _ _ e he
    · simp at he
  · simp at he

theorem listSliceDeleteE_root (s : Store) (id : Nat) (sl : PySlice) :
    ∀ e ∈ (listSliceDeleteE s id sl).2, e.root = rootIdOf s id := by
  intro e he
  unfold listSliceDeleteE at he
  split at he
  · split at he
    · exact listSliceDeleteCoreE_root s id _ _ _ e he
    · simp at he
  · simp at he

theorem listSliceAssignE_root (s : Store) (id : Nat) (sl : PySlice) (vs : List Plain) :
    ∀ e ∈ (listSliceAssignE s id sl vs).2, e.root = rootIdOf s id := by
  intro e he
  unfold listSliceAssignE at he
  split at he
  · split at he
    · split at he
      · rcases List.mem_append.mp he with h1 | h1
        · exact listSliceDeleteCoreE_root _ _ _ _ _ e h1
        · exact insertManyE_root _ _ _ _ _ _ e h1
      · dsimp only at he
        split at he
        · simp only [List.mem_map] at he
          obtain ⟨q, _, hq⟩ := he
          simp [← hq]
        · simp at he
    · simp at he
  · simp at he

theorem listAddE_events (s : Store) (id : Nat) (other : List Plain) :
    (listAddE s id other).2.2 = [] := by
  unfold listAddE
  repeat' split
  all_goals rfl

theorem two_le_length_of_mem_ne {α : Type} {a b : α} {l : List α}
    (ha : a ∈ l) (hb : b ∈ l) (h : a ≠ b) : 2 ≤ l.length := by
  induction l with
  | nil => simp at ha
  | cons x rest ih =>
      rcases List.mem_cons.mp ha with h1 | h1 <;>
        rcases List.mem_cons.mp hb with h2 | h2
      · exact absurd (h1.trans h2.symm) h
      · have : 0 < rest.length := List.length_pos.mpr (List.ne_nil_of_mem h2)
        simp; omega
      · have : 0 < rest.length := List.length_pos.mpr (List.ne_nil_of_mem h1)
        simp; omega
      · have := ih h1 h2
        simp; omega

theorem rootIdOf_isRoot (s : Store) (id : Nat) (nd : Node)
    (hget : heapGet s id = some nd) (hp : nd.parent = none) : rootIdOf s id = id := by
  have hlen : 1 ≤ s.heap.length :=
    List.length_pos.mpr (List.ne_nil_of_mem (heapFind_some_mem s.heap id nd hget))
  obtain ⟨f, hf⟩ : ∃ f, s.heap.length = f + 1 := ⟨s.heap.length - 1, by omega⟩
  unfold rootIdOf
  rw [hf]
  simp [rootOfAux, hget, hp]

theorem absPath_isRoot (s : Store) (id : Nat) (nd : Node)
    (hget : heapGet s id = some nd) (hp : nd.parent = none) : absPath s id = [] := by
  have hlen : 1 ≤ s.heap.length :=
    List.length_pos.mpr (List.ne_nil_of_mem (heapFind_some_mem s.heap id nd hget))
  obtain ⟨f, hf⟩ : ∃ f, s.heap.length = f + 1 := ⟨s.heap.length - 1, by omega⟩
  unfold absPath
  rw [hf]
  simp [pathOfAux, hget, hp]

theorem rootIdOf_depthOne (s : Store) (cid did : Nat) (ndc ndd : Node)
    (hc : heapGet s cid = some ndc) (hpc : ndc.parent = some did)
    (hd : heapGet s did = some ndd) (hpd : ndd.parent = none)
    (hne : did ≠ cid) : rootIdOf s cid = did := by
  have hlen : 2 ≤ s.heap.length :=
    two_le_length_of_mem_ne (heapFind_some_mem s.heap did ndd hd)
      (heapFind_some_mem s.heap cid ndc hc) (by simp [hne])
  obtain ⟨f, hf⟩ : ∃ f, s.heap.length = f + 2 := ⟨s.heap.length - 2, by omega⟩
  unfold rootIdOf
  rw [hf]
  simp [rootOfAux, hc, hpc, hd, hpd]

theorem absPath_depthOne (s : Store) (cid did : Nat) (ndc ndd : Node) (r : Ref)
    (hc : heapGet s cid = some ndc) (hpc : ndc.parent = some did)
    (hrc : ndc.refInParent = some r)
    (hd : heapGet s did = some ndd) (hpd : ndd.parent = none)
    (hne : did ≠ cid) : absPath s cid = [r] := by
  have hlen : 2 ≤ s.heap.length :=
    two_le_length_of_mem_ne (heapFind_some_mem s.heap did ndd hd)
      (heapFind_some_mem s.heap cid ndc hc) (by simp [hne])
  obtain ⟨f, hf⟩ : ∃ f, s.heap.length = f + 2 := ⟨s.heap.length - 2, by omega⟩
  unfold absPath
  rw [hf]
  simp [pathOfAux, hc, hpc, hrc, hd, hpd]

/-- C1: For every write of a scalar value at depth two (setting a key
inside the nested container stored in a root observable map, or an index
inside the nested sequence of a root observable sequence, or appending to
it), exactly two events fire in root-to-leaf order: first an Access event
with path equal to the one-step prefix (old=none, new=none), then the
terminal Add (previously-absent slot, old=none) or Update
(previously-present slot, old=prior value) event with the full two-step
path — and each of the two events reaches the root's pre-callbacks before
the step and its post-callbacks after it with the identical argument tuple
(the pre-log and the post-log are extended by the same two tuples). -/
theorem nested_scalar_write_two_events :
    (∀ (st : ObsState) (dId cId : Nat) (k1 k2 : String) (n : Int)
       (es1 : List (String × StoredVal)) (es2 : List (String × StoredVal))
       (rr : Option Ref),
      heapGet st.store dId = some ⟨.bdict es1, none, rr⟩ →
      entLookup es1 k1 = some (.node cId) →
      heapGet st.store cId = some ⟨.bdict es2, some dId, some (.key k1)⟩ →
      dId ≠ cId →
      entLookup es2 k2 = none →
      (dictSet (dictGet st dId k1).2 cId k2 (.int n)).preLog =
        st.preLog ++ [⟨dId, .Access, [.key k1], none, none⟩,
                      ⟨dId, .Add, [.key k1, .key k2], none, some (.int n)⟩] ∧
      (dictSet (dictGet st dId k1).2 cId k2 (.int n)).postLog =
        st.postLog ++ [⟨dId, .Access, [.key k1], none, none⟩,
                       ⟨dId, .Add, [.key k1, .key k2], none, some (.int n)⟩]) ∧
    (∀ (st : ObsState) (dId cId : Nat) (k1 k2 : String) (n : Int)
       (es1 : List (String × StoredVal)) (es2 : List (String × StoredVal))
       (rr : Option Ref) (ov : StoredVal),
      heapGet st.store dId = some ⟨.bdict es1, none, rr⟩ →
      entLookup es1 k1 = some (.node cId) →
      heapGet st.store cId = some ⟨.bdict es2, some dId, some (.key k1)⟩ →
      dId ≠ cId →
      entLookup es2 k2 = some ov →
      (dictSet (dictGet st dId k1).2 cId k2 (.int n)).preLog =
        st.preLog ++ [⟨dId, .Access, [.key k1], none, none⟩,
                      ⟨dId, .Update, [.key k1, .key k2],
                       some (unwrapV st.store ov), some (.int n)⟩] ∧
      (dictSet (dictGet st dId k1).2 cId k2 (.int n)).postLog =
        st.postLog ++ [⟨dId, .Access, [.key k1], none, none⟩,
                       ⟨dId, .Update, [.key k1, .key k2],
                        some (unwrapV st.store ov), some (.int n)⟩]) ∧
    (∀ (st : ObsState) (sId cId : Nat) (i1 i2 : Nat) (n : Int)
       (xs ys : List StoredVal) (rr : Option Ref) (ov : StoredVal),
      heapGet st.store sId = some ⟨.blist xs, none, rr⟩ →
      xs.get? i1 = some (.node cId) →
      heapGet st.store cId = some ⟨.blist ys, some sId, some (.idx i1)⟩ →
      sId ≠ cId →
      ys.get? i2 = some ov →
      (listSet (listGet st sId i1).2 cId i2 (.int n)).preLog =
        st.preLog ++ [⟨sId, .Access, [.idx i1], none, none⟩,
                      ⟨sId, .Update, [.idx i1, .idx i2],
                       some (unwrapV st.store ov), some (.int n)⟩] ∧
      (listSet (listGet st sId i1).2 cId i2 (.int n)).postLog =
        st.postLog ++ [⟨sId, .Access, [.idx i1], none, none⟩,
                       ⟨sId, .Update, [.idx i1, .idx i2],
                        some (unwrapV st.store ov), some (.int n)⟩]) ∧
    (∀ (st : ObsState) (sId cId : Nat) (i1 : Nat) (n : Int)
       (xs ys : List StoredVal) (rr : Option Ref),
      heapGet st.store sId = some ⟨.blist xs, none, rr⟩ →
      xs.get? i1 = some (.node cId) →
      heapGet st.store cId = some ⟨.blist ys, some sId, some (.idx i1)⟩ →
      sId ≠ cId →
      (listAppend (listGet st sId i1).2 cId (.int n)).preLog =
        st.preLog ++ [⟨sId, .Access, [.idx i1], none, none⟩,
                      ⟨sId, .Add, [.idx i1, .idx ys.length], none, some (.int n)⟩] ∧
      (listAppend (listGet st sId i1).2 cId (.int n)).postLog =
        st.postLog ++ [⟨sId, .Access, [.idx i1], none, none⟩,
                       ⟨sId, .Add, [.idx i1, .idx ys.length], none, some (.int n)⟩]) := by
  refine ⟨?_, ?_, ?_, ?_⟩
  · intro st dId cId k1 k2 n es1 es2 rr hd hl hc hne hk2
    have hroot1 := rootIdOf_isRoot st.store dId _ hd rfl
    have hpath1 := absPath_isRoot st.store dId _ hd rfl
    have hroot2 := rootIdOf_depthOne st.store cId dId _ _ hc rfl hd rfl hne
    have hpath2 := absPath_depthOne st.store cId dId _ _ (Ref.key k1) hc rfl rfl hd rfl hne
    constructor <;>
      simp [dictGet, dictGetE, hd, hl, hroot1, hpath1, dictSet, dictSetE, hc,
        hk2, hroot2, hpath2, commit]
  · intro st dId cId k1 k2 n es1 es2 rr ov hd hl hc hne hk2
    have hroot1 := rootIdOf_isRoot st.store dId _ hd rfl
    have hpath1 := absPath_isRoot st.store dId _ hd rfl
    have hroot2 := rootIdOf_depthOne st.store cId dId _ _ hc rfl hd rfl hne
    have hpath2 := absPath_depthOne st.store cId dId _ _ (Ref.key k1) hc rfl rfl hd rfl hne
    constructor <;>
      simp [dictGet, dictGetE, hd, hl, hroot1, hpath1, dictSet, dictSetE, hc,
        hk2, hroot2, hpath2, commit]
  · intro st sId cId i1 i2 n xs ys rr ov hs hx hc hne hy
    have hroot1 := rootIdOf_isRoot st.store sId _ hs rfl
    have hpath1 := absPath_isRoot st.store sId _ hs rfl
    have hroot2 := rootIdOf_depthOne st.store cId sId _ _ hc rfl hs rfl hne
    have hpath2 := absPath_depthOne st.store cId sId _ _ (Ref.idx i1) hc rfl rfl hs rfl hne
    have hx2 : xs[i1]? = some (StoredVal.node cId) := by
      rw [← List.get?_eq_getElem?]; exact hx
    have hy2 : ys[i2]? = some ov := by
      rw [← List.get?_eq_getElem?]; exact hy
    constructor <;>
      simp [listGet, listGetE, hs, hx2, hroot1, hpath1, listSet, listSetE, hc,
        hy2, hroot2, hpath2, commit]
  · intro st sId cId i1 n xs ys rr hs hx hc hne
    have hroot1 := rootIdOf_isRoot st.store sId _ hs rfl
    have hpath1 := absPath_isRoot st.store sId _ hs rfl
    have hroot2 := rootIdOf_depthOne st.store cId sId _ _ hc rfl hs rfl hne
    have hpath2 := absPath_depthOne st.store cId sId _ _ (Ref.idx i1) hc rfl rfl hs rfl hne
    have hx2 : xs[i1]? = some (StoredVal.node cId) := by
      rw [← List.get?_eq_getElem?]; exact hx
    constructor <;>
      simp [listGet, listGetE, hs, hx2, hroot1, hpath1, listAppend, listAppendE,
        listInsertCoreE, hc, hroot2, hpath2, commit]

/-- The test scenario: a root observable map `{"nested": {}}` (root node 0,
nested node 1). -/
def nestedDictState : ObsState := (newStruct initState (.pdict [("nested", .pdict [])])).2

theorem nested_scalar_write_two_events_witness :
    heapGet nestedDictState.store 0 =
      some ⟨.bdict [("nested", .node 1)], none, none⟩ ∧
    (dictSet (dictGet nestedDictState 0 "nested").2 1 "a" (.int 1)).preLog =
      [⟨0, .Access, [.key "nested"], none, none⟩,
       ⟨0, .Add, [.key "nested", .key "a"], none, some (.int 1)⟩] ∧
    (dictSet (dictGet nestedDictState 0 "nested").2 1 "a" (.int 1)).postLog =
      [⟨0, .Access, [.key "nested"], none, none⟩,
       ⟨0, .Add, [.key "nested", .key "a"], none, some (.int 1)⟩] := by
  have h := nested_scalar_write_two_events.1 nestedDictState 0 1 "nested" "a" 1
    [("nested", .node 1)] [] none rfl rfl rfl (by decide) rfl
  exact ⟨rfl, by simpa using h.1, by simpa using h.2⟩

/-- C2: For every event fired by any access or mutation occurring at any
nesting depth inside a tree whose topmost ancestor (the node reached by
following parent links until `parent = none`) is R, the first argument
recorded for every pre- and post-callback invocation is R itself — never
the intermediate node on which the operation locally occurred; and the
pre-log and the post-log receive the identical event tuples. -/
theorem dispatch_root_first_argument (st : ObsState) (op : AnyOp) (R : Nat)
    (h : rootIdOf st.store op.target = R) :
    ∃ es, (runOp st op).preLog = st.preLog ++ es ∧
          (runOp st op).postLog = st.postLog ++ es ∧
          ∀ e ∈ es, e.root = R := by
  refine ⟨(runOpE st.store op).2, rfl, rfl, ?_⟩
  subst h
  cases op with
  | dGet id k => exact dictGetE_root st.store id k
  | dSet id k v => exact dictSetE_root st.store id k v
  | dDel id k => exact dictDeleteE_root st.store id k
  | dPop id => exact dictPopitemE_root st.store id
  | dOr id other =>
      intro e he
      rw [show runOpE st.store (.dOr id other) = (dictOrE st.store id other).2 from rfl,
        dictOrE_events] at he
      simp at he
  | lGet id i => exact listGetE_root st.store id i
  | lSet id i v => exact listSetE_root st.store id i v
  | lDel id i => exact listDeleteE_root st.store id i
  | lIns id i v => exact listInsertE_root st.store id i v
  | lApp id v => exact listAppendE_root st.store id v
  | lRev id => exact listReverseE_root st.store id
  | lSlSet id sl vs => exact listSliceAssignE_root st.store id sl vs
  | lSlDel id sl => exact listSliceDeleteE_root st.store id sl
  | lCat id other =>
      intro e he
      rw [show runOpE st.store (.lCat id other) = (listAddE st.store id other).2 from rfl,
        listAddE_events] at he
      simp at he

/-- The cross-kind test scenario: a root observable sequence `[{"a": 1}]`
(root node 0, nested map node 1). -/
def dictInListState : ObsState := (newStruct initState (.plist [.pdict [("a", .int 1)]])).2

theorem dispatch_root_first_argument_witness :
    rootIdOf dictInListState.store (AnyOp.dGet 1 "a").target = 0 ∧
    ∃ es, (runOp dictInListState (.dGet 1 "a")).preLog = dictInListState.preLog ++ es ∧
          (runOp dictInListState (.dGet 1 "a")).postLog = dictInListState.postLog ++ es ∧
          ∀ e ∈ es, e.root = 0 :=
  ⟨rfl, dispatch_root_first_argument dictInListState (.dGet 1 "a") 0 rfl⟩

/-- C4: For every write to a previously-present slot whose current value is
a wrapped container node, exactly one Update event fires, whose old value
is the prior contents unwrapped to plain structural form and whose new
value is the plain form of the assigned value (`Plain` by type); and every
element deletion fires exactly one Remove event reporting old as the
removed value in plain form with new=none.  Pre- and post-logs receive the
identical tuple. -/
theorem update_remove_report_plain_form :
    (∀ (st : ObsState) (id : Nat) (k : String) (v : Plain)
       (es : List (String × StoredVal)) (p : Option Nat) (r : Option Ref) (m : Nat),
      heapGet st.store id = some ⟨.bdict es, p, r⟩ →
      entLookup es k = some (.node m) →
      (dictSet st id k v).preLog = st.preLog ++
        [⟨rootIdOf st.store id, .Update, absPath st.store id ++ [.key k],
          some (unwrapV st.store (.node m)), some v⟩] ∧
      (dictSet st id k v).postLog = st.postLog ++
        [⟨rootIdOf st.store id, .Update, absPath st.store id ++ [.key k],
          some (unwrapV st.store (.node m)), some v⟩]) ∧
    (∀ (st : ObsState) (id i : Nat) (v : Plain)
       (xs : List StoredVal) (p : Option Nat) (r : Option Ref) (m : Nat),
      heapGet st.store id = some ⟨.blist xs, p, r⟩ →
      xs.get? i = some (.node m) →
      (listSet st id i v).preLog = st.preLog ++
        [⟨rootIdOf st.store id, .Update, absPath st.store id ++ [.idx i],
          some (unwrapV st.store (.node m)), some v⟩] ∧
      (listSet st id i v).postLog = st.postLog ++
        [⟨rootIdOf st.store id, .Update, absPath st.store id ++ [.idx i],
          some (unwrapV st.store (.node m)), some v⟩]) ∧
    (∀ (st : ObsState) (id : Nat) (k : String)
       (es : List (String × StoredVal)) (p : Option Nat) (r : Option Ref) (ov : StoredVal),
      heapGet st.store id = some ⟨.bdict es, p, r⟩ →
      entLookup es k = some ov →
      (dictDelete st id k).preLog = st.preLog ++
        [⟨rootIdOf st.store id, .Remove, absPath st.store id ++ [.key k],
          some (unwrapV st.store ov), none⟩] ∧
      (dictDelete st id k).postLog = st.postLog ++
        [⟨rootIdOf st.store id, .Remove, absPath st.store id ++ [.key k],
          some (unwrapV st.store ov), none⟩]) ∧
    (∀ (st : ObsState) (id i : Nat)
       (xs : List StoredVal) (p : Option Nat) (r : Option Ref) (ov : StoredVal),
      heapGet st.store id = some ⟨.blist xs, p, r⟩ →
      xs.get? i = some ov →
      (listDelete st id i).preLog = st.preLog ++
        [⟨rootIdOf st.store id, .Remove, absPath st.store id ++ [.idx i],
          some (unwrapV st.store ov), none⟩] ∧
      (listDelete st id i).postLog = st.postLog ++
        [⟨rootIdOf st.store id, .Remove, absPath st.store id ++ [.idx i],
          some (unwrapV st.store ov), none⟩]) := by
  refine ⟨?_, ?_, ?_, ?_⟩
  · intro st id k v es p r m hget hk
    constructor <;> simp [dictSet, dictSetE, hget, hk, commit]
  · intro st id i v xs p r m hget hi
    have hi2 : xs[i]? = some (StoredVal.node m) := by
      rw [← List.get?_eq_getElem?]; exact hi
    constructor <;> simp [listSet, listSetE, hget, hi2, commit]
  · intro st id k es p r ov hget hk
    constructor <;> simp [dictDelete, dictDeleteE, hget, hk, commit]
  · intro st id i xs p r ov hget hi
    have hi2 : xs[i]? = some ov := by
      rw [← List.get?_eq_getElem?]; exact hi
    constructor <;> simp [listDelete, listDeleteE, hget, hi2, commit]

/-- The test scenario: a root observable map `{"nested": {"a": 1}}`. -/
def nestedFullDictState : ObsState :=
  (newStruct initState (.pdict [("nested", .pdict [("a", .int 1)])])).2

theorem update_remove_report_plain_form_witness :
    heapGet nestedFullDictState.store 0 =
      some ⟨.bdict [("nested", .node 1)], none, none⟩ ∧
    (dictSet nestedFullDictState 0 "nested" (.pdict [("b", .int 2)])).preLog =
      [⟨0, .Update, [.key "nested"], some (.pdict [("a", .int 1)]),
        some (.pdict [("b", .int 2)])⟩] := by
  have h := update_remove_report_plain_form.1 nestedFullDictState 0 "nested"
    (.pdict [("b", .int 2)]) [("nested", .node 1)] none none 1 rfl rfl
  refine ⟨rfl, ?_⟩
  rw [h.1]
  rfl

/-- C7: `popitem` on an empty observable map fails with a LookupError-class
error (modelled as a `none` result), synchronously: the whole state —
backing, node arena, pre-log and post-log — is returned unchanged, so no
event fires and the map stays empty. -/
theorem popitem_empty_map_fails (st : ObsState) (id : Nat)
    (p : Option Nat) (r : Option Ref)
    (h : heapGet st.store id = some ⟨.bdict [], p, r⟩) :
    dictPopitem st id = (none, st) := by
  simp [dictPopitem, dictPopitemE, h, commit]

theorem popitem_empty_map_fails_witness :
    heapGet (newStruct initState (.pdict [])).2.store 0 =
      some ⟨.bdict [], none, none⟩ ∧
    dictPopitem (newStruct initState (.pdict [])).2 0 =
      (none, (newStruct initState (.pdict [])).2) :=
  ⟨rfl, popitem_empty_map_fails (newStruct initState (.pdict [])).2 0 none none rfl⟩

/-- C9: On a non-empty observable map whose keys are distinct, `popitem`
removes and returns the most recently inserted key/value pair (the last
entry in insertion order) as a (key, value) pair, and the returned key is
afterwards absent from the map. -/
theorem popitem_returns_last_pair (st : ObsState) (id : Nat)
    (es : List (String × StoredVal)) (p : Option Nat) (r : Option Ref)
    (k : String) (v : StoredVal)
    (hget : heapGet st.store id = some ⟨.bdict es, p, r⟩)
    (hlast : es.getLast? = some (k, v))
    (hnd : (es.map Prod.fst).Nodup) :
    (dictPopitem st id).1 = some (k, v) ∧
    (∃ p2 r2, heapGet (dictPopitem st id).2.store id =
        some ⟨.bdict es.dropLast, p2, r2⟩) ∧
    entLookup es.dropLast k = none := by
  refine ⟨by simp [dictPopitem, dictPopitemE, hget, hlast], ?_,
    entLookup_dropLast_none es k v hlast hnd⟩
  have hst : (dictPopitem st id).2.store =
      setBacking (detachVal st.store v) id (.bdict es.dropLast) := by
    simp [dictPopitem, dictPopitemE, hget, hlast, commit]
  rw [hst]
  cases v with
  | scalar n =>
      exact ⟨p, r, by
        have : detachVal st.store (.scalar n) = st.store := rfl
        rw [this, setBacking_get_same st.store id _ _ hget]⟩
  | node m =>
      by_cases hm : m = id
      · subst hm
        cases hgm : heapGet st.store m with
        | none =>
            have : detachId st.store m = st.store := by unfold detachId; rw [hgm]
            exact ⟨p, r, by
              show heapGet (setBacking (detachId st.store m) m (.bdict es.dropLast)) m = _
              rw [this, setBacking_get_same st.store m _ _ hget]⟩
        | some nm =>
            refine ⟨none, none, ?_⟩
            show heapGet (setBacking (detachId st.store m) m (.bdict es.dropLast)) m = _
            have h1 : heapGet (detachId st.store m) m = some ⟨nm.backing, none, none⟩ :=
              detachId_get_same st.store m nm hgm
            rw [setBacking_get_same _ m _ _ h1]
      · refine ⟨p, r, ?_⟩
        show heapGet (setBacking (detachId st.store m) id (.bdict es.dropLast)) id = _
        have h1 : heapGet (detachId st.store m) id = heapGet st.store id :=
          detachId_get_other st.store id m hm
        rw [setBacking_get_same _ id _ _ (h1.trans hget)]

/-- The test scenario: a root observable map `{"a": 1, "b": 2}`. -/
def pairDictState : ObsState :=
  (newStruct initState (.pdict [("a", .int 1), ("b", .int 2)])).2

theorem popitem_returns_last_pair_witness :
    heapGet pairDictState.store 0 =
      some ⟨.bdict [("a", .scalar 1), ("b", .scalar 2)], none, none⟩ ∧
    (dictPopitem pairDictState 0).1 = some ("b", .scalar 2) ∧
    (∃ p2 r2, heapGet (dictPopitem pairDictState 0).2.store 0 =
        some ⟨.bdict [("a", .scalar 1)], p2, r2⟩) ∧
    entLookup [("a", .scalar 1)] "b" = none := by
  have h := popitem_returns_last_pair pairDictState 0
    [("a", .scalar 1), ("b", .scalar 2)] none none "b" (.scalar 2)
    rfl rfl (by decide)
  exact ⟨rfl, h.1, h.2.1, h.2.2⟩

/-- C10: inserting at an index at or beyond the current length clamps the
position to the end: the operation equals an append, never fails, and its
single Add event carries the clamped position (the old length) as its
index. -/
theorem insert_clamps_to_append (st : ObsState) (id i : Nat) (v : Plain)
    (xs : List StoredVal) (p : Option Nat) (r : Option Ref)
    (hget : heapGet st.store id = some ⟨.blist xs, p, r⟩)
    (hi : xs.length ≤ i) :
    listInsert st id i v = listAppend st id v ∧
    (listInsert st id i v).preLog = st.preLog ++
      [⟨rootIdOf st.store id, .Add, absPath st.store id ++ [.idx xs.length],
        none, some v⟩] ∧
    (listInsert st id i v).postLog = st.postLog ++
      [⟨rootIdOf st.store id, .Add, absPath st.store id ++ [.idx xs.length],
        none, some v⟩] := by
  have hmin : min i xs.length = xs.length := Nat.min_eq_right hi
  refine ⟨?_, ?_, ?_⟩ <;>
    simp [listInsert, listAppend, listInsertE, listAppendE, listInsertCoreE,
      hget, hmin, commit]

theorem insert_clamps_to_append_witness :
    heapGet (newStruct initState (.plist [])).2.store 0 =
      some ⟨.blist [], none, none⟩ ∧
    listInsert (newStruct initState (.plist [])).2 0 10 (.int 1) =
      listAppend (newStruct initState (.plist [])).2 0 (.int 1) ∧
    (listInsert (newStruct initState (.plist [])).2 0 10 (.int 1)).preLog =
      [⟨0, .Add, [.idx 0], none, some (.int 1)⟩] := by
  have h := insert_clamps_to_append (newStruct initState (.plist [])).2 0 10
    (.int 1) [] none none rfl (by decide)
  refine ⟨rfl, h.1, ?_⟩
  rw [h.2.1]
  rfl

/-- The test scenario: a root observable sequence `[1, 2, 3]`. -/
def listThreeState : ObsState := (newStruct initState (.plist [.int 1, .int 2, .int 3])).2

/-- C5: slice semantics on the sequence `[1,2,3]`: assigning `[7,8,9]` to
the step-1 slice `[1:2]` yields `[1,7,8,9,3]` (length-changing, shifting
subsequent elements); assigning `[4,5]` to the extended slice `[::2]`
yields `[4,2,5]`; deleting the slice `[::2]` yields `[2]`; and for any
sequence, an extended-slice (step not 1) assignment whose replacement
length differs from the resolved index count is a ValueError-class failure
that leaves the state unchanged (no mutation, no events). -/
theorem slice_assignment_semantics :
    plainOf (listSliceAssign listThreeState 0 ⟨some 1, some 2, none⟩
        [.int 7, .int 8, .int 9]) 0 =
      .plist [.int 1, .int 7, .int 8, .int 9, .int 3] ∧
    plainOf (listSliceAssign listThreeState 0 ⟨none, none, some 2⟩
        [.int 4, .int 5]) 0 =
      .plist [.int 4, .int 2, .int 5] ∧
    plainOf (listSliceDelete listThreeState 0 ⟨none, none, some 2⟩) 0 =
      .plist [.int 2] ∧
    (∀ (st : ObsState) (id : Nat) (sl : PySlice) (vs : List Plain)
       (xs : List StoredVal) (p : Option Nat) (r : Option Ref),
      heapGet st.store id = some ⟨.blist xs, p, r⟩ →
      (sliceParams sl xs.length).2.2 ≠ 1 →
      vs.length ≠ (resolveSliceIndexes sl xs.length).length →
      listSliceAssign st id sl vs = st) := by
  refine ⟨rfl, rfl, rfl, ?_⟩
  intro st id sl vs xs p r hget hstep hlen
  simp [listSliceAssign, listSliceAssignE, hget, hstep, hlen, commit]

theorem slice_assignment_semantics_witness :
    heapGet listThreeState.store 0 =
      some ⟨.blist [.scalar 1, .scalar 2, .scalar 3], none, none⟩ ∧
    listSliceAssign listThreeState 0 ⟨none, none, some 2⟩ [.int 4] =
      listThreeState := by
  refine ⟨rfl, ?_⟩
  exact slice_assignment_semantics.2.2.2 listThreeState 0 ⟨none, none, some 2⟩
    [.int 4] [.scalar 1, .scalar 2, .scalar 3] none none rfl
    (by decide) (by decide)

/-- The test scenario: a root observable sequence `[[1], [2]]` (root node
0, first element node 1, second element node 2). -/
def reversePairState : ObsState :=
  (newStruct initState (.plist [.plist [.int 1], .plist [.int 2]])).2

/-- C6: calling reverse() on `[[1],[2]]` produces `[[2],[1]]` and fires
exactly two Update events (not Remove+Add): first at path [0] with
old=[1], new=[2], then at path [1] with old=[2], new=[1], identically on
the pre- and the post-log; afterwards the wrapped element at each position
has parent equal to the sequence node and reference_in_parent equal to its
new index. -/
theorem reverse_pairwise_updates :
    (listReverse reversePairState 0).preLog =
      [⟨0, .Update, [.idx 0], some (.plist [.int 1]), some (.plist [.int 2])⟩,
       ⟨0, .Update, [.idx 1], some (.plist [.int 2]), some (.plist [.int 1])⟩] ∧
    (listReverse reversePairState 0).postLog =
      [⟨0, .Update, [.idx 0], some (.plist [.int 1]), some (.plist [.int 2])⟩,
       ⟨0, .Update, [.idx 1], some (.plist [.int 2]), some (.plist [.int 1])⟩] ∧
    plainOf (listReverse reversePairState 0) 0 =
      .plist [.plist [.int 2], .plist [.int 1]] ∧
    heapGet (listReverse reversePairState 0).store 1 =
      some ⟨.blist [.scalar 1], some 0, some (.idx 1)⟩ ∧
    heapGet (listReverse reversePairState 0).store 2 =
      some ⟨.blist [.scalar 2], some 0, some (.idx 0)⟩ :=
  ⟨rfl, rfl, rfl, rfl, rfl⟩

/-- C8: For every non-mutating merge (the or-operator on an observable map
with a plain map, and list concatenation on an observable sequence with a
plain sequence), the original observable container is left structurally
unchanged (every pre-existing node of the arena is untouched), the result
is a new, freshly allocated container whose plain form equals the
merged/concatenated plain contents, and zero observer events fire (both
callback logs are unchanged). -/
theorem nonmutating_merge_no_events :
    (∀ (st : ObsState) (id : Nat) (es : List (String × StoredVal))
       (p : Option Nat) (r : Option Ref) (other : List (String × Plain)),
      idsBounded st.store →
      heapGet st.store id = some ⟨.bdict es, p, r⟩ →
      (dictOr st id other).2.preLog = st.preLog ∧
      (dictOr st id other).2.postLog = st.postLog ∧
      (∀ n, n < st.store.nextId →
        heapGet (dictOr st id other).2.store n = heapGet st.store n) ∧
      ∃ m, (dictOr st id other).1 = some m ∧
        st.store.nextId ≤ m ∧ heapGet st.store m = none ∧
        unwrapV (dictOr st id other).2.store (.node m) =
          .pdict (mergePlainEntries (es.map (fun q => (q.1, unwrapV st.store q.2))) other)) ∧
    (∀ (st : ObsState) (id : Nat) (xs : List StoredVal)
       (p : Option Nat) (r : Option Ref) (other : List Plain),
      idsBounded st.store →
      heapGet st.store id = some ⟨.blist xs, p, r⟩ →
      (listAdd st id other).2.preLog = st.preLog ∧
      (listAdd st id other).2.postLog = st.postLog ∧
      (∀ n, n < st.store.nextId →
        heapGet (listAdd st id other).2.store n = heapGet st.store n) ∧
      ∃ m, (listAdd st id other).1 = some m ∧
        st.store.nextId ≤ m ∧ heapGet st.store m = none ∧
        unwrapV (listAdd st id other).2.store (.node m) =
          .plist (xs.map (unwrapV st.store) ++ other)) := by
  constructor
  · intro st id es p r other hb hget
    have W := wrapPlain_spec
      (.pdict (mergePlainEntries (es.map (fun q => (q.1, unwrapV st.store q.2))) other))
      st.store none none hb
    refine ⟨by simp [dictOr, dictOrE, hget, wrapPlain, commit],
            by simp [dictOr, dictOrE, hget, wrapPlain, commit], ?_, ?_⟩
    · intro n hn
      have hst : (dictOr st id other).2.store =
          (wrapPlain st.store none none
            (.pdict (mergePlainEntries (es.map (fun q => (q.1, unwrapV st.store q.2))) other))).2 := by
        simp [dictOr, dictOrE, hget, wrapPlain, commit]
      rw [hst]
      exact W.keep n hn
    · refine ⟨st.store.nextId, by simp [dictOr, dictOrE, hget, wrapPlain], le_refl _,
        heapGet_none_of_bounded st.store hb _ (le_refl _), ?_⟩
      have hst : (dictOr st id other).2.store =
          (wrapPlain st.store none none
            (.pdict (mergePlainEntries (es.map (fun q => (q.1, unwrapV st.store q.2))) other))).2 := by
        simp [dictOr, dictOrE, hget, wrapPlain, commit]
      have hsv : (wrapPlain st.store none none
            (.pdict (mergePlainEntries (es.map (fun q => (q.1, unwrapV st.store q.2))) other))).1 =
          .node st.store.nextId := rfl
      rw [hst, unwrapV, ← hsv]
      apply W.unwrapEq _ _ (agreesOn_refl _ _ _)
      have := W.grow
      omega
  · intro st id xs p r other hb hget
    have W := wrapPlain_spec (.plist (xs.map (unwrapV st.store) ++ other))
      st.store none none hb
    refine ⟨by simp [listAdd, listAddE, hget, wrapPlain, commit],
            by simp [listAdd, listAddE, hget, wrapPlain, commit], ?_, ?_⟩
    · intro n hn
      have hst : (listAdd st id other).2.store =
          (wrapPlain st.store none none (.plist (xs.map (unwrapV st.store) ++ other))).2 := by
        simp [listAdd, listAddE, hget, wrapPlain, commit]
      rw [hst]
      exact W.keep n hn
    · refine ⟨st.store.nextId, by simp [listAdd, listAddE, hget, wrapPlain], le_refl _,
        heapGet_none_of_bounded st.store hb _ (le_refl _), ?_⟩
      have hst : (listAdd st id other).2.store =
          (wrapPlain st.store none none (.plist (xs.map (unwrapV st.store) ++ other))).2 := by
        simp [listAdd, listAddE, hget, wrapPlain, commit]
      have hsv : (wrapPlain st.store none none
            (.plist (xs.map (unwrapV st.store) ++ other))).1 =
          .node st.store.nextId := rfl
      rw [hst, unwrapV, ← hsv]
      apply W.unwrapEq _ _ (agreesOn_refl _ _ _)
      have := W.grow
      omega

/-- The test scenario: a root observable map `{"a": 1}`. -/
def mergeDictState : ObsState := (newStruct initState (.pdict [("a", .int 1)])).2

theorem nonmutating_merge_no_events_witness :
    idsBounded mergeDictState.store ∧
    ((dictOr mergeDictState 0 [("c", .int 3)]).2.preLog = mergeDictState.preLog ∧
     (dictOr mergeDictState 0 [("c", .int 3)]).2.postLog = mergeDictState.postLog ∧
     (∀ n, n < mergeDictState.store.nextId →
       heapGet (dictOr mergeDictState 0 [("c", .int 3)]).2.store n =
         heapGet mergeDictState.store n) ∧
     ∃ m, (dictOr mergeDictState 0 [("c", .int 3)]).1 = some m ∧
       mergeDictState.store.nextId ≤ m ∧ heapGet mergeDictState.store m = none ∧
       unwrapV (dictOr mergeDictState 0 [("c", .int 3)]).2.store (.node m) =
         .pdict (mergePlainEntries
           ([("a", StoredVal.scalar 1)].map (fun q => (q.1, unwrapV mergeDictState.store q.2)))
           [("c", .int 3)])) :=
  ⟨by unfold idsBounded; decide,
   nonmutating_merge_no_events.1 mergeDictState 0 [("a", .scalar 1)] none none
     [("c", .int 3)] (by unfold idsBounded; decide) rfl⟩

/-- C3: For every deletion of, or overwriting assignment to, a slot that
currently holds a wrapped container node (in an observable map by key, in
an observable sequence by index, and for deletion also via a slice),
immediately after the operation the previously wrapped node is orphaned —
its backing survives but `parent = none` and `reference_in_parent = none` —
while in the overwrite case the newly stored container is a freshly
allocated node (id = the arena's next id, previously unused) with `parent`
the containing node and `reference_in_parent` that key/index.  The
no-aliasing hypotheses (distinct ids, the node not stored elsewhere)
reflect the tree-shape invariant of section 3. -/
theorem removal_orphans_and_rewire_fresh :
    (∀ (st : ObsState) (id : Nat) (k : String) (es : List (String × StoredVal))
       (p : Option Nat) (r : Option Ref) (m : Nat) (nm : Node),
      heapGet st.store id = some ⟨.bdict es, p, r⟩ →
      entLookup es k = some (.node m) →
      heapGet st.store m = some nm →
      m ≠ id →
      heapGet (dictDelete st id k).store m = some ⟨nm.backing, none, none⟩) ∧
    (∀ (st : ObsState) (id i : Nat) (xs : List StoredVal)
       (p : Option Nat) (r : Option Ref) (m : Nat) (nm : Node),
      heapGet st.store id = some ⟨.blist xs, p, r⟩ →
      xs.get? i = some (.node m) →
      heapGet st.store m = some nm →
      m ≠ id →
      StoredVal.node m ∉ xs.eraseIdx i →
      heapGet (listDelete st id i).store m = some ⟨nm.backing, none, none⟩) ∧
    (∀ (st : ObsState) (id : Nat) (k : String) (v : Plain)
       (es : List (String × StoredVal)) (p : Option Nat) (r : Option Ref)
       (m : Nat) (nm : Node),
      idsBounded st.store →
      heapGet st.store id = some ⟨.bdict es, p, r⟩ →
      entLookup es k = some (.node m) →
      heapGet st.store m = some nm →
      m ≠ id →
      (∀ n : Int, v ≠ .int n) →
      heapGet (dictSet st id k v).store m = some ⟨nm.backing, none, none⟩ ∧
      heapGet (dictSet st id k v).store id =
        some ⟨.bdict (entSet es k (.node st.store.nextId)), p, r⟩ ∧
      entLookup (entSet es k (.node st.store.nextId)) k =
        some (.node st.store.nextId) ∧
      heapGet st.store st.store.nextId = none ∧
      (∃ b, heapGet (dictSet st id k v).store st.store.nextId =
        some ⟨b, some id, some (.key k)⟩)) ∧
    (∀ (st : ObsState) (id i : Nat) (v : Plain)
       (xs : List StoredVal) (p : Option Nat) (r : Option Ref)
       (m : Nat) (nm : Node),
      idsBounded st.store →
      heapGet st.store id = some ⟨.blist xs, p, r⟩ →
      xs.get? i = some (.node m) →
      heapGet st.store m = some nm →
      m ≠ id →
      (∀ n : Int, v ≠ .int n) →
      heapGet (listSet st id i v).store m = some ⟨nm.backing, none, none⟩ ∧
      heapGet (listSet st id i v).store id =
        some ⟨.blist (xs.set i (.node st.store.nextId)), p, r⟩ ∧
      heapGet st.store st.store.nextId = none ∧
      (∃ b, heapGet (listSet st id i v).store st.store.nextId =
        some ⟨b, some id, some (.idx i)⟩)) ∧
    (∀ (st : ObsState) (id : Nat) (sl : PySlice) (xs : List StoredVal)
       (p : Option Nat) (r : Option Ref) (j m : Nat) (nm : Node),
      heapGet st.store id = some ⟨.blist xs, p, r⟩ →
      j ∈ resolveSliceIndexes sl xs.length →
      xs.get? j = some (.node m) →
      heapGet st.store m = some nm →
      m ≠ id →
      StoredVal.node m ∉ removeIdxs xs (resolveSliceIndexes sl xs.length) →
      heapGet (listSliceDelete st id sl).store m = some ⟨nm.backing, none, none⟩) := by
  refine ⟨?_, ?_, ?_, ?_, ?_⟩
  · intro st id k es p r m nm hget hk hm hne
    have hst : (dictDelete st id k).store =
        setBacking (detachVal st.store (.node m)) id (.bdict (entErase es k)) := by
      simp [dictDelete, dictDeleteE, hget, hk, commit]
    rw [hst, setBacking_get_other _ id m _ hne]
    exact detachId_get_same st.store m nm hm
  · intro st id i xs p r m nm hget hi hm hne hnomem
    have hi2 : xs[i]? = some (StoredVal.node m) := by
      rw [← List.get?_eq_getElem?]; exact hi
    have hst : (listDelete st id i).store =
        reindexChildren
          (setBacking (detachVal st.store (.node m)) id (.blist (xs.eraseIdx i)))
          id (xs.eraseIdx i) := by
      simp [listDelete, listDeleteE, hget, hi2, commit]
    rw [hst]
    unfold reindexChildren
    rw [reindexFrom_get_other _ _ _ _ _ hnomem,
      setBacking_get_other _ id m _ hne]
    exact detachId_get_same st.store m nm hm
  · intro st id k v es p r m nm hb hget hk hm hne hv
    have hb1 : idsBounded (detachVal st.store (.node m)) :=
      idsBounded_detachVal st.store (.node m) hb
    have hn1 : (detachVal st.store (.node m)).nextId = st.store.nextId :=
      detachVal_nextId st.store (.node m)
    have W := wrapPlain_spec v (detachVal st.store (.node m))
      (some id) (some (Ref.key k)) hb1
    set s1 := detachVal st.store (.node m) with hs1
    set w := wrapPlain s1 (some id) (some (Ref.key k)) v with hwdef
    obtain ⟨m2, hm2⟩ : ∃ m2, w.1 = .node m2 := by
      cases v with
      | int n => exact absurd rfl (hv n)
      | pdict es2 => exact ⟨s1.nextId, rfl⟩
      | plist xs2 => exact ⟨s1.nextId, rfl⟩
    obtain ⟨hm2eq, hm2lt, b, hbm⟩ := W.fresh m2 hm2
    have hmlt : m < st.store.nextId := heapGet_some_lt st.store hb m nm hm
    have hidlt : id < st.store.nextId := heapGet_some_lt st.store hb id _ hget
    have hm2top : m2 = st.store.nextId := by rw [hm2eq, hn1]
    have hst : (dictSet st id k v).store =
        setBacking w.2 id (.bdict (entSet es k w.1)) := by
      simp [dictSet, dictSetE, hget, hk, commit, ← hwdef]
    have hgid1 : heapGet s1 id = some ⟨.bdict es, p, r⟩ := by
      rw [hs1]
      show heapGet (detachId st.store m) id = _
      rw [detachId_get_other st.store id m hne]
      exact hget
    have hgidw : heapGet w.2 id = some ⟨.bdict es, p, r⟩ := by
      rw [W.keep id (by omega)]
      exact hgid1
    refine ⟨?_, ?_, ?_, ?_, ?_⟩
    · rw [hst, setBacking_get_other _ id m _ hne,
        W.keep m (by omega)]
      show heapGet (detachId st.store m) m = _
      exact detachId_get_same st.store m nm hm
    · rw [hst, ← hm2top, ← hm2]
      exact setBacking_get_same w.2 id _ _ hgidw
    · exact entLookup_entSet_same es k _
    · exact heapGet_none_of_bounded st.store hb _ (le_refl _)
    · refine ⟨b, ?_⟩
      rw [hst, ← hm2top,
        setBacking_get_other _ id m2 _ (by omega)]
      exact hbm
  · intro st id i v xs p r m nm hb hget hi hm hne hv
    have hi2 : xs[i]? = some (StoredVal.node m) := by
      rw [← List.get?_eq_getElem?]; exact hi
    have hb1 : idsBounded (detachVal st.store (.node m)) :=
      idsBounded_detachVal st.store (.node m) hb
    have hn1 : (detachVal st.store (.node m)).nextId = st.store.nextId :=
      detachVal_nextId st.store (.node m)
    have W := wrapPlain_spec v (detachVal st.store (.node m))
      (some id) (some (Ref.idx i)) hb1
    set s1 := detachVal st.store (.node m) with hs1
    set w := wrapPlain s1 (some id) (some (Ref.idx i)) v with hwdef
    obtain ⟨m2, hm2⟩ : ∃ m2, w.1 = .node m2 := by
      cases v with
      | int n => exact absurd rfl (hv n)
      | pdict es2 => exact ⟨s1.nextId, rfl⟩
      | plist xs2 => exact ⟨s1.nextId, rfl⟩
    obtain ⟨hm2eq, hm2lt, b, hbm⟩ := W.fresh m2 hm2
    have hmlt : m < st.store.nextId := heapGet_some_lt st.store hb m nm hm
    have hidlt : id < st.store.nextId := heapGet_some_lt st.store hb id _ hget
    have hm2top : m2 = st.store.nextId := by rw [hm2eq, hn1]
    have hst : (listSet st id i v).store =
        setBacking w.2 id (.blist (xs.set i w.1)) := by
      simp [listSet, listSetE, hget, hi2, commit, ← hwdef]
    have hgid1 : heapGet s1 id = some ⟨.blist xs, p, r⟩ := by
      rw [hs1]
      show heapGet (detachId st.store m) id = _
      rw [detachId_get_other st.store id m hne]
      exact hget
    have hgidw : heapGet w.2 id = some ⟨.blist xs, p, r⟩ := by
      rw [W.keep id (by omega)]
      exact hgid1
    refine ⟨?_, ?_, ?_, ?_⟩
    · rw [hst, setBacking_get_other _ id m _ hne,
        W.keep m (by omega)]
      show heapGet (detachId st.store m) m = _
      exact detachId_get_same st.store m nm hm
    · rw [hst, ← hm2top, ← hm2]
      exact setBacking_get_same w.2 id _ _ hgidw
    · exact heapGet_none_of_bounded st.store hb _ (le_refl _)
    · refine ⟨b, ?_⟩
      rw [hst, ← hm2top,
        setBacking_get_other _ id m2 _ (by omega)]
      exact hbm
  · intro st id sl xs p r j m nm hget hj hx hm hne hnomem
    have hx2 : xs[j]? = some (StoredVal.node m) := by
      rw [← List.get?_eq_getElem?]; exact hx
    have hst : (listSliceDelete st id sl).store =
        reindexChildren
          (setBacking
            (detachVals st.store (selectIdxs xs (resolveSliceIndexes sl xs.length)))
            id (.blist (removeIdxs xs (resolveSliceIndexes sl xs.length))))
          id (removeIdxs xs (resolveSliceIndexes sl xs.length)) := by
      simp [listSliceDelete, listSliceDeleteE, listSliceDeleteCoreE, hget, commit]
    have hmemsel : StoredVal.node m ∈ selectIdxs xs (resolveSliceIndexes sl xs.length) := by
      unfold selectIdxs
      exact List.mem_filterMap.mpr ⟨j, hj, hx⟩
    rw [hst]
    unfold reindexChildren
    rw [reindexFrom_get_other _ _ _ _ _ hnomem,
      setBacking_get_other _ id m _ hne]
    exact detachVals_orphan _ st.store m nm hmemsel hm

theorem removal_orphans_and_rewire_fresh_witness :
    heapGet (dictSet nestedFullDictState 0 "nested" (.pdict [("b", .int 2)])).store 1 =
      some ⟨.bdict [("a", .scalar 1)], none, none⟩ ∧
    heapGet (dictSet nestedFullDictState 0 "nested" (.pdict [("b", .int 2)])).store 0 =
      some ⟨.bdict [("nested", .node 2)], none, none⟩ ∧
    heapGet nestedFullDictState.store 2 = none ∧
    (∃ b, heapGet (dictSet nestedFullDictState 0 "nested" (.pdict [("b", .int 2)])).store 2 =
      some ⟨b, some 0, some (.key "nested")⟩) := by
  have h := removal_orphans_and_rewire_fresh.2.2.1 nestedFullDictState 0 "nested"
    (.pdict [("b", .int 2)]) [("nested", .node 1)] none none 1
    ⟨.bdict [("a", .scalar 1)], some 0, some (.key "nested")⟩
    (by unfold idsBounded; decide) rfl rfl rfl (by decide)
    (fun n hn => Plain.noConfusion hn)
  exact ⟨h.1, h.2.1, h.2.2.2.1, h.2.2.2.2⟩
